import Mathlib

/-!
Verification of the tinykv storage engine (a Bitcask-style append-only
key/value store) against its natural-language specification.

The development shallowly embeds the Rust sources:
  * `src/data/record.rs`  — record codec (type byte, varint lengths, CRC32);
  * `src/data/storage.rs` — segment reads (`read_record`, `read_record_head_buf`,
    `read_key_from_header`), file-name parsing (`is_storage_file`);
  * `src/engine.rs`       — `set`/`get`/`delete`, `append_record` with rollover,
    recovery (`build_index_from_storage`, `load_storages_sorted`);
  * `src/index/btree.rs`  — the ordered index and its snapshot iterator;
  * `src/iterator.rs`     — the user-facing iterator.

Bytes are modelled as `Nat` (values `< 256` where it matters), files as
`List Nat`, machine integers as `Nat` with explicit bounds.  Fallible code
returns `Except KvError`.  Positional reads (`seek_read` into a zeroed
buffer) are modelled by zero-padding past end of file, mirroring the Rust
code which ignores the byte count returned by `seek_read`.
-/

set_option linter.unusedVariables false

namespace TinyKv

/-- Every element of the list is a byte value, i.e. below 256. -/
def ByteListOk (l : List Nat) : Prop := ∀ b ∈ l, b < 256

instance (l : List Nat) : Decidable (ByteListOk l) := by
  unfold ByteListOk; infer_instance

/-! ## Protobuf-style base-128 varints (`prost::encode_length_delimiter`,
`prost::decode_length_delimiter`).  Encoding writes 7 bits per byte, low
group first, setting the continuation bit 0x80 on all but the last byte.
Decoding reads at most 10 bytes (the `u64` range) and rejects a 10-byte
varint whose final byte exceeds 1, exactly as prost does. -/

/-- Structural helper for `varintLen`: the fuel argument strictly
decreases; any fuel at least `n` computes the true value. -/
def varintLenGo : Nat → Nat → Nat
  | 0, _ => 1
  | f + 1, n => if n < 128 then 1 else 1 + varintLenGo f (n / 128)

/-- Number of bytes of the varint encoding of `n`
(`prost::length_delimiter_len`). -/
def varintLen (n : Nat) : Nat := varintLenGo n n

/-- Structural helper for `encodeVarint`. -/
def encodeVarintGo : Nat → Nat → List Nat
  | 0, n => [n]
  | f + 1, n => if n < 128 then [n] else (n % 128 + 128) :: encodeVarintGo f (n / 128)

/-- The varint encoding of `n` (`prost::encode_length_delimiter` written
into an unbounded `Vec`, which cannot fail). -/
def encodeVarint (n : Nat) : List Nat := encodeVarintGo n n

theorem varintLenGo_irrel :
    ∀ f1 f2 n : Nat, n ≤ f1 → n ≤ f2 → varintLenGo f1 n = varintLenGo f2 n := by
  intro f1
  induction f1 with
  | zero =>
    intro f2 n h1 h2
    have hz : n = 0 := by omega
    subst hz
    cases f2 <;> simp [varintLenGo]
  | succ f ih =>
    intro f2 n h1 h2
    cases f2 with
    | zero =>
      have hz : n = 0 := by omega
      subst hz
      simp [varintLenGo]
    | succ g =>
      simp only [varintLenGo]
      split
      · rfl
      · rename_i h
        have hd : n / 128 < n := Nat.div_lt_self (by omega) (by omega)
        rw [ih g (n / 128) (by omega) (by omega)]

theorem varintLen_unfold (n : Nat) :
    varintLen n = if n < 128 then 1 else 1 + varintLen (n / 128) := by
  unfold varintLen
  by_cases h : n < 128
  · rw [if_pos h]
    cases n with
    | zero => rfl
    | succ m => simp [varintLenGo, h]
  · rw [if_neg h]
    obtain ⟨m, rfl⟩ : ∃ m, n = m + 1 := ⟨n - 1, by omega⟩
    simp only [varintLenGo, if_neg h]
    congr 1
    have hd : (m + 1) / 128 < m + 1 := Nat.div_lt_self (by omega) (by omega)
    exact varintLenGo_irrel m ((m + 1) / 128) ((m + 1) / 128) (by omega) (le_refl _)

theorem encodeVarintGo_irrel :
    ∀ f1 f2 n : Nat, n ≤ f1 → n ≤ f2 → encodeVarintGo f1 n = encodeVarintGo f2 n := by
  intro f1
  induction f1 with
  | zero =>
    intro f2 n h1 h2
    have hz : n = 0 := by omega
    subst hz
    cases f2 <;> simp [encodeVarintGo]
  | succ f ih =>
    intro f2 n h1 h2
    cases f2 with
    | zero =>
      have hz : n = 0 := by omega
      subst hz
      simp [encodeVarintGo]
    | succ g =>
      simp only [encodeVarintGo]
      split
      · rfl
      · rename_i h
        have hd : n / 128 < n := Nat.div_lt_self (by omega) (by omega)
        rw [ih g (n / 128) (by omega) (by omega)]

theorem encodeVarint_unfold (n : Nat) :
    encodeVarint n = if n < 128 then [n] else (n % 128 + 128) :: encodeVarint (n / 128) := by
  unfold encodeVarint
  by_cases h : n < 128
  · rw [if_pos h]
    cases n with
    | zero => rfl
    | succ m => simp [encodeVarintGo, h]
  · rw [if_neg h]
    obtain ⟨m, rfl⟩ : ∃ m, n = m + 1 := ⟨n - 1, by omega⟩
    simp only [encodeVarintGo, if_neg h]
    congr 1
    have hd : (m + 1) / 128 < m + 1 := Nat.div_lt_self (by omega) (by omega)
    exact encodeVarintGo_irrel m ((m + 1) / 128) ((m + 1) / 128) (by omega) (le_refl _)

/-- Varint decoding: `decodeVarintAux fuel l shift acc`; called with
`fuel = 10`.  Returns the decoded value and the number of bytes consumed
(recovered as `10 - fuel`), or `none` on buffer underflow, on a varint
longer than 10 bytes, or on a 10-byte varint whose last byte exceeds 1
(the prost `u64` overflow check). -/
def decodeVarintAux : Nat → List Nat → Nat → Nat → Option (Nat × Nat)
  | 0, _, _, _ => none
  | _ + 1, [], _, _ => none
  | fuel + 1, b :: rest, shift, acc =>
    if b % 256 < 128 then
      if fuel = 0 ∧ 1 < b % 256 then none
      else some (acc + b % 256 * 2 ^ shift, 10 - fuel)
    else
      decodeVarintAux fuel rest (shift + 7) (acc + (b % 256 - 128) * 2 ^ shift)

/-- Decode a length delimiter from the front of `l`
(`prost::decode_length_delimiter`): the value and the bytes consumed. -/
def decodeVarint (l : List Nat) : Option (Nat × Nat) :=
  decodeVarintAux 10 l 0 0

theorem varintLen_pos (n : Nat) : 0 < varintLen n := by
  rw [varintLen_unfold]; split <;> omega

theorem varintLen_eq_one (n : Nat) (h : n < 128) : varintLen n = 1 := by
  rw [varintLen_unfold]; simp [h]

theorem length_encodeVarint (n : Nat) : (encodeVarint n).length = varintLen n := by
  induction n using Nat.strong_induction_on with
  | _ n ih =>
    rw [encodeVarint_unfold, varintLen_unfold]
    split
    · rfl
    · rename_i h
      simp only [List.length_cons]
      rw [ih (n / 128) (Nat.div_lt_self (by omega) (by omega))]
      omega

theorem encodeVarint_bytes (n : Nat) : ByteListOk (encodeVarint n) := by
  induction n using Nat.strong_induction_on with
  | _ n ih =>
    rw [encodeVarint_unfold]
    split
    · intro b hb; simp at hb; omega
    · rename_i h
      intro b hb
      simp only [List.mem_cons] at hb
      rcases hb with hb | hb
      · omega
      · exact ih (n / 128) (Nat.div_lt_self (by omega) (by omega)) b hb

theorem varintLen_le_five (n : Nat) (h : n < 2 ^ 35) : varintLen n ≤ 5 := by
  rw [varintLen_unfold]; split
  · omega
  rw [varintLen_unfold]; split
  · omega
  rw [varintLen_unfold]; split
  · omega
  rw [varintLen_unfold]; split
  · omega
  rw [varintLen_unfold]; split
  · omega
  · exfalso; omega

theorem varintLen_le_ten (n : Nat) (h : n < 2 ^ 64) : varintLen n ≤ 10 := by
  rw [varintLen_unfold]; split
  · omega
  rw [varintLen_unfold]; split
  · omega
  rw [varintLen_unfold]; split
  · omega
  rw [varintLen_unfold]; split
  · omega
  rw [varintLen_unfold]; split
  · omega
  rw [varintLen_unfold]; split
  · omega
  rw [varintLen_unfold]; split
  · omega
  rw [varintLen_unfold]; split
  · omega
  rw [varintLen_unfold]; split
  · omega
  rw [varintLen_unfold]; split
  · omega
  · exfalso; omega

/-- Varint round-trip in context: decoding the encoding of `n` followed by
arbitrary bytes yields `n` and consumes exactly `varintLen n` bytes.
Stated for every sufficient fuel/shift/accumulator state so that it can
be applied mid-buffer; the bound `n < 2 ^ (7 * fuel - 6)` is the prost
10-byte overflow invariant. -/
theorem decodeVarintAux_encode (n : Nat) :
    ∀ fuel shift acc rest, varintLen n ≤ fuel → fuel ≤ 10 →
      n < 2 ^ (7 * fuel - 6) →
      decodeVarintAux fuel (encodeVarint n ++ rest) shift acc =
        some (acc + n * 2 ^ shift, 10 - (fuel - varintLen n)) := by
  induction n using Nat.strong_induction_on with
  | _ n ih =>
    intro fuel shift acc rest hfuel hfuel10 hbits
    have hpos := varintLen_pos n
    rw [encodeVarint_unfold]
    split
    · rename_i h
      rw [varintLen_eq_one n h] at hfuel ⊢
      obtain ⟨f, rfl⟩ : ∃ f, fuel = f + 1 := ⟨fuel - 1, by omega⟩
      simp only [List.cons_append, decodeVarintAux]
      have hb : n % 256 = n := Nat.mod_eq_of_lt (by omega)
      rw [hb]
      simp only [h, if_pos]
      have hnot : ¬(f = 0 ∧ 1 < n) := by
        rintro ⟨rfl, hn1⟩
        norm_num at hbits
        omega
      simp [hnot]
    · rename_i h
      obtain ⟨f, rfl⟩ : ∃ f, fuel = f + 1 := ⟨fuel - 1, by omega⟩
      simp only [List.cons_append, decodeVarintAux]
      have hb : (n % 128 + 128) % 256 = n % 128 + 128 := Nat.mod_eq_of_lt (by omega)
      rw [hb]
      have hge : ¬(n % 128 + 128 < 128) := by omega
      simp only [hge, if_false]
      have hlt : n / 128 < n := Nat.div_lt_self (by omega) (by omega)
      have hlen : varintLen n = 1 + varintLen (n / 128) := by
        rw [varintLen_unfold]
        simp [h]
      have hpos2 := varintLen_pos (n / 128)
      have hfge : 1 ≤ f := by omega
      have hbits2 : n / 128 < 2 ^ (7 * f - 6) := by
        apply Nat.div_lt_of_lt_mul
        have h7 : 7 * (f + 1) - 6 = (7 * f - 6) + 7 := by omega
        rw [h7, pow_add] at hbits
        calc n < 2 ^ (7 * f - 6) * 2 ^ 7 := hbits
          _ = 128 * 2 ^ (7 * f - 6) := by ring
      have hrec := ih (n / 128) hlt f (shift + 7) (acc + n % 128 * 2 ^ shift) rest
        (by omega) (by omega) hbits2
      have hsub : n % 128 + 128 - 128 = n % 128 := by omega
      simp only [List.append_eq]
      rw [hsub, hrec]
      have hacc : acc + n % 128 * 2 ^ shift + n / 128 * 2 ^ (shift + 7) =
          acc + n * 2 ^ shift := by
        have hd : n = 128 * (n / 128) + n % 128 := (Nat.div_add_mod n 128).symm
        rw [pow_add]
        calc acc + n % 128 * 2 ^ shift + n / 128 * (2 ^ shift * 2 ^ 7)
            = acc + (n % 128 + 128 * (n / 128)) * 2 ^ shift := by ring
          _ = acc + n * 2 ^ shift := by rw [Nat.mod_add_div n 128]
      rw [hacc]
      have hcnt : 10 - (f - varintLen (n / 128)) = 10 - (f + 1 - varintLen n) := by
        have := varintLen_pos (n / 128)
        omega
      rw [hcnt]

/-- Varint round-trip: decoding `encodeVarint n ++ rest` yields `n` and
consumes `varintLen n` bytes, for every `n < 2 ^ 64`. -/
theorem decodeVarint_encode (n : Nat) (hn : n < 2 ^ 64) (rest : List Nat) :
    decodeVarint (encodeVarint n ++ rest) = some (n, varintLen n) := by
  have h10 := varintLen_le_ten n hn
  have hb : n < 2 ^ (7 * 10 - 6) := by norm_num; omega
  have hd := decodeVarintAux_encode n 10 0 0 rest h10 (le_refl 10) hb
  have h1 : (0 : Nat) + n * 2 ^ 0 = n := by norm_num
  have h2 : 10 - (10 - varintLen n) = varintLen n := by omega
  rw [decodeVarint, hd, h1, h2]

/-! ## CRC32 (IEEE), the checksum computed by `crc32fast::Hasher`:
initial state `0xFFFFFFFF`, per byte XOR into the low bits followed by
eight shift/conditional-XOR rounds with the reflected polynomial
`0xEDB88320`, final complement. -/

/-- The reflected CRC-32 (IEEE) polynomial. -/
def CRC_POLY : Nat := 0xEDB88320

/-- One bit round of the CRC32 state update. -/
def crcBit (c : Nat) : Nat :=
  if c % 2 = 1 then c / 2 ^^^ CRC_POLY else c / 2

/-- Eight bit rounds. -/
def crcBits8 (c : Nat) : Nat :=
  crcBit (crcBit (crcBit (crcBit (crcBit (crcBit (crcBit (crcBit c)))))))

/-- Feed one byte into the CRC32 state (`crc32fast::Hasher::update`,
one byte at a time; the byte is a `u8`, hence the mod 256). -/
def crcByte (c b : Nat) : Nat := crcBits8 (c ^^^ (b % 256))

/-- Feed a byte list into the CRC32 state. -/
def crcFold (c : Nat) (l : List Nat) : Nat := l.foldl crcByte c

/-- CRC32 of a byte list (`Hasher::new` / `update` / `finalize`). -/
def crc32 (l : List Nat) : Nat := crcFold 0xFFFFFFFF l ^^^ 0xFFFFFFFF

theorem xor_right_cancel_nat {a b p : Nat} (h : a ^^^ p = b ^^^ p) : a = b := by
  have h2 : a ^^^ p ^^^ p = b ^^^ p ^^^ p := by rw [h]
  simpa [Nat.xor_assoc, Nat.xor_self, Nat.xor_zero] using h2

theorem xor_left_cancel_nat {a b p : Nat} (h : p ^^^ a = p ^^^ b) : a = b := by
  have h2 : p ^^^ (p ^^^ a) = p ^^^ (p ^^^ b) := by rw [h]
  simpa [← Nat.xor_assoc, Nat.xor_self, Nat.zero_xor] using h2

theorem crcBit_lt {c : Nat} (h : c < 2 ^ 32) : crcBit c < 2 ^ 32 := by
  unfold crcBit
  split
  · exact Nat.xor_lt_two_pow (by omega) (by norm_num [CRC_POLY])
  · omega

theorem crcBits8_lt {c : Nat} (h : c < 2 ^ 32) : crcBits8 c < 2 ^ 32 := by
  unfold crcBits8
  exact crcBit_lt (crcBit_lt (crcBit_lt (crcBit_lt
    (crcBit_lt (crcBit_lt (crcBit_lt (crcBit_lt h)))))))

theorem crcByte_lt {c : Nat} (b : Nat) (hc : c < 2 ^ 32) :
    crcByte c b < 2 ^ 32 := by
  unfold crcByte
  have hb : b % 256 < 256 := Nat.mod_lt b (by norm_num)
  exact crcBits8_lt (Nat.xor_lt_two_pow hc (by omega))

theorem crcFold_lt {c : Nat} {l : List Nat} (hc : c < 2 ^ 32) :
    crcFold c l < 2 ^ 32 := by
  induction l generalizing c with
  | nil => exact hc
  | cons b rest ih => exact ih (crcByte_lt b hc)

theorem crcBit_inj {c1 c2 : Nat} (h1 : c1 < 2 ^ 32) (h2 : c2 < 2 ^ 32)
    (h : crcBit c1 = crcBit c2) : c1 = c2 := by
  have hp31 : CRC_POLY.testBit 31 = true := by decide
  unfold crcBit at h
  by_cases p1 : c1 % 2 = 1 <;> by_cases p2 : c2 % 2 = 1
  · simp only [p1, p2, if_pos] at h
    have := xor_right_cancel_nat h
    omega
  · simp only [p1, p2, if_pos, if_neg, if_false] at h
    exfalso
    have hb1 : (c1 / 2 ^^^ CRC_POLY).testBit 31 = true := by
      rw [Nat.testBit_xor, hp31]
      have : (c1 / 2).testBit 31 = false :=
        Nat.testBit_lt_two_pow (by omega)
      simp [this]
    have hb2 : (c2 / 2).testBit 31 = false :=
      Nat.testBit_lt_two_pow (by omega)
    rw [h] at hb1
    rw [hb1] at hb2
    exact Bool.noConfusion hb2
  · simp only [p1, p2, if_pos, if_neg, if_false] at h
    exfalso
    have hb1 : (c2 / 2 ^^^ CRC_POLY).testBit 31 = true := by
      rw [Nat.testBit_xor, hp31]
      have : (c2 / 2).testBit 31 = false :=
        Nat.testBit_lt_two_pow (by omega)
      simp [this]
    have hb2 : (c1 / 2).testBit 31 = false :=
      Nat.testBit_lt_two_pow (by omega)
    rw [← h] at hb1
    rw [hb1] at hb2
    exact Bool.noConfusion hb2
  · simp only [p1, p2, if_neg, if_false] at h
    omega

theorem crcBits8_inj {c1 c2 : Nat} (h1 : c1 < 2 ^ 32) (h2 : c2 < 2 ^ 32)
    (h : crcBits8 c1 = crcBits8 c2) : c1 = c2 := by
  unfold crcBits8 at h
  have b1 := crcBit_lt h1
  have b2 := crcBit_lt h2
  have b11 := crcBit_lt b1
  have b21 := crcBit_lt b2
  have b12 := crcBit_lt b11
  have b22 := crcBit_lt b21
  have b13 := crcBit_lt b12
  have b23 := crcBit_lt b22
  have b14 := crcBit_lt b13
  have b24 := crcBit_lt b23
  have b15 := crcBit_lt b14
  have b25 := crcBit_lt b24
  have b16 := crcBit_lt b15
  have b26 := crcBit_lt b25
  exact crcBit_inj h1 h2 (crcBit_inj b1 b2 (crcBit_inj b11 b21 (crcBit_inj b12 b22
    (crcBit_inj b13 b23 (crcBit_inj b14 b24 (crcBit_inj b15 b25
      (crcBit_inj b16 b26 h)))))))

theorem crcByte_inj {c1 c2 b : Nat} (h1 : c1 < 2 ^ 32) (h2 : c2 < 2 ^ 32)
    (h : crcByte c1 b = crcByte c2 b) : c1 = c2 := by
  unfold crcByte at h
  have hb : b % 256 < 256 := Nat.mod_lt b (by norm_num)
  have := crcBits8_inj (Nat.xor_lt_two_pow h1 (by omega))
    (Nat.xor_lt_two_pow h2 (by omega)) h
  exact xor_right_cancel_nat this

theorem crcByte_ne_of_byte_ne {c b1 b2 : Nat} (hc : c < 2 ^ 32)
    (hb1 : b1 < 256) (hb2 : b2 < 256) (hne : b1 ≠ b2) :
    crcByte c b1 ≠ crcByte c b2 := by
  intro h
  unfold crcByte at h
  have m1 : b1 % 256 < 256 := Nat.mod_lt b1 (by norm_num)
  have m2 : b2 % 256 < 256 := Nat.mod_lt b2 (by norm_num)
  have := crcBits8_inj (Nat.xor_lt_two_pow hc (by omega))
    (Nat.xor_lt_two_pow hc (by omega)) h
  have hmod := xor_left_cancel_nat this
  rw [Nat.mod_eq_of_lt hb1, Nat.mod_eq_of_lt hb2] at hmod
  exact hne hmod

theorem crcFold_inj {l : List Nat} :
    ∀ {c1 c2 : Nat}, c1 < 2 ^ 32 → c2 < 2 ^ 32 → c1 ≠ c2 →
      crcFold c1 l ≠ crcFold c2 l := by
  induction l with
  | nil => intro c1 c2 _ _ hne; exact hne
  | cons b rest ih =>
    intro c1 c2 h1 h2 hne
    have hstep : crcByte c1 b ≠ crcByte c2 b := by
      intro h
      exact hne (crcByte_inj h1 h2 h)
    exact ih (crcByte_lt b h1) (crcByte_lt b h2) hstep

/-- CRC32 distinguishes two byte strings that differ in exactly one byte. -/
theorem crc32_flip_ne {pre suf : List Nat} {b1 b2 : Nat}
    (hb1 : b1 < 256) (hb2 : b2 < 256) (hne : b1 ≠ b2) :
    crc32 (pre ++ b1 :: suf) ≠ crc32 (pre ++ b2 :: suf) := by
  intro h
  unfold crc32 crcFold at h
  rw [List.foldl_append, List.foldl_append] at h
  have hmid := xor_right_cancel_nat h
  simp only [List.foldl_cons] at hmid
  have hs : List.foldl crcByte 0xFFFFFFFF pre < 2 ^ 32 := by
    have : crcFold 0xFFFFFFFF pre < 2 ^ 32 := crcFold_lt (by norm_num)
    exact this
  have hstep : crcByte (List.foldl crcByte 0xFFFFFFFF pre) b1 ≠
      crcByte (List.foldl crcByte 0xFFFFFFFF pre) b2 :=
    crcByte_ne_of_byte_ne hs hb1 hb2 hne
  have := crcFold_inj (l := suf) (crcByte_lt b1 hs) (crcByte_lt b2 hs) hstep
  exact this hmid

theorem crc32_lt (l : List Nat) : crc32 l < 2 ^ 32 := by
  unfold crc32
  exact Nat.xor_lt_two_pow (crcFold_lt (by norm_num)) (by norm_num)

/-! ## Big-endian 32-bit words (`BufMut::put_u32` / `Buf::get_u32`). -/

/-- Big-endian byte serialization of a 32-bit word (`put_u32`). -/
def u32be (x : Nat) : List Nat :=
  [x / 2 ^ 24 % 256, x / 2 ^ 16 % 256, x / 2 ^ 8 % 256, x % 256]

/-- Big-endian 32-bit read of the first four bytes (`get_u32`); bytes are
taken mod 256 as in the machine representation. -/
def getU32be (l : List Nat) : Nat :=
  match l with
  | b0 :: b1 :: b2 :: b3 :: _ =>
    b0 % 256 * 2 ^ 24 + b1 % 256 * 2 ^ 16 + b2 % 256 * 2 ^ 8 + b3 % 256
  | _ => 0

theorem u32be_bytes (x : Nat) : ByteListOk (u32be x) := by
  intro b hb
  simp [u32be] at hb
  rcases hb with h | h | h | h <;> omega

theorem length_u32be (x : Nat) : (u32be x).length = 4 := rfl

theorem getU32be_u32be (x : Nat) (hx : x < 2 ^ 32) (rest : List Nat) :
    getU32be (u32be x ++ rest) = x := by
  simp only [u32be, List.cons_append, getU32be]
  omega

theorem getU32be_flip_ne {b0 b1 b2 b3 c0 c1 c2 c3 : Nat}
    (h0 : b0 < 256) (h1 : b1 < 256) (h2 : b2 < 256) (h3 : b3 < 256)
    (g0 : c0 < 256) (g1 : c1 < 256) (g2 : c2 < 256) (g3 : c3 < 256)
    (hne : (b0, b1, b2, b3) ≠ (c0, c1, c2, c3)) :
    getU32be (b0 :: b1 :: b2 :: b3 :: []) ≠ getU32be (c0 :: c1 :: c2 :: c3 :: []) := by
  intro h
  simp only [getU32be] at h
  apply hne
  have e0 : b0 % 256 = b0 := Nat.mod_eq_of_lt h0
  have e1 : b1 % 256 = b1 := Nat.mod_eq_of_lt h1
  have e2 : b2 % 256 = b2 := Nat.mod_eq_of_lt h2
  have e3 : b3 % 256 = b3 := Nat.mod_eq_of_lt h3
  have f0 : c0 % 256 = c0 := Nat.mod_eq_of_lt g0
  have f1 : c1 % 256 = c1 := Nat.mod_eq_of_lt g1
  have f2 : c2 % 256 = c2 := Nat.mod_eq_of_lt g2
  have f3 : c3 % 256 = c3 := Nat.mod_eq_of_lt g3
  rw [e0, e1, e2, e3, f0, f1, f2, f3] at h
  have : b0 = c0 ∧ b1 = c1 ∧ b2 = c2 ∧ b3 = c3 := by omega
  simp [this.1, this.2.1, this.2.2.1, this.2.2.2]

/-! ## Errors (`src/error.rs`). Payloads of `Io`, `DecodeError`,
`EncodeError` carry no information the claims need and are dropped. -/

inductive KvError where
  | Io
  | DecodeError
  | EncodeError
  | InvalidKey
  | InvalidCommandType
  | InvalidPath
  | ReadEOF
  | InvalidCrc
deriving DecidableEq, Repr


instance {e a : Type} [DecidableEq e] [DecidableEq a] : DecidableEq (Except e a) := fun x y =>
  match x, y with
  | .error u, .error v =>
    if h : u = v then isTrue (congrArg Except.error h)
    else isFalse (fun hc => h (Except.error.inj hc))
  | .error _, .ok _ => isFalse (fun hc => Except.noConfusion hc)
  | .ok _, .error _ => isFalse (fun hc => Except.noConfusion hc)
  | .ok u, .ok v =>
    if h : u = v then isTrue (congrArg Except.ok h)
    else isFalse (fun hc => h (Except.ok.inj hc))

/-! ## Record codec (`src/data/record.rs`). -/

inductive RecordType where
  | UnexpectCommand
  | Normal
  | Remove
deriving DecidableEq, Repr

/-- The discriminant written to disk (`self.record_type as u8`). -/
def RecordType.toByte : RecordType → Nat
  | .UnexpectCommand => 0
  | .Normal => 1
  | .Remove => 2

/-- The `impl From<u8> for RecordType`: 1 is Normal, 2 is Remove, every
other byte is UnexpectCommand. -/
def recordTypeFromU8 (b : Nat) : RecordType :=
  if b = 1 then .Normal else if b = 2 then .Remove else .UnexpectCommand

/-- A record position `(gen, offset)` stored in the index. -/
structure RecordPos where
  gen : Nat
  offset : Nat
deriving DecidableEq, Repr

/-- A logical record: key, value, and type. -/
structure Record where
  key : List Nat
  value : List Nat
  record_type : RecordType
deriving DecidableEq, Repr

/-- `Record::new_set`. -/
def Record.new_set (key value : List Nat) : Record := ⟨key, value, .Normal⟩

/-- `Record::new_remove`. -/
def Record.new_remove (key : List Nat) : Record := ⟨key, [], .Remove⟩

/-- The CRC-covered prefix of the encoding: type byte, varint key length,
varint value length, key bytes, value bytes. -/
def Record.bodyBytes (r : Record) : List Nat :=
  r.record_type.toByte ::
    (encodeVarint r.key.length ++ encodeVarint r.value.length ++ r.key ++ r.value)

/-- `Record::encode`: body followed by the big-endian CRC32 of the body.
In the source this returns `Result`, but `encode_length_delimiter` into a
`Vec` cannot fail, so the encoding is total. -/
def Record.encode (r : Record) : List Nat :=
  r.bodyBytes ++ u32be (crc32 r.bodyBytes)

/-- `Record::encoded_len`: the on-disk length of the record. -/
def Record.encoded_len (r : Record) : Nat :=
  1 + varintLen r.key.length + varintLen r.value.length
    + r.key.length + r.value.length + 4

/-- The parsed header of a record (`ReadRecordHeaderBuf`). -/
structure ReadRecordHeaderBuf where
  record_type : RecordType
  key_size : Nat
  value_size : Nat
deriving DecidableEq, Repr

/-- `ReadRecordHeaderBuf::get_header_len`. -/
def ReadRecordHeaderBuf.get_header_len (h : ReadRecordHeaderBuf) : Nat :=
  varintLen h.key_size + varintLen h.value_size + 1

/-- `ReadRecordHeaderBuf::encoded_len`. -/
def ReadRecordHeaderBuf.encoded_len (h : ReadRecordHeaderBuf) : Nat :=
  1 + varintLen h.key_size + varintLen h.value_size + h.key_size + h.value_size + 4

theorem toByte_lt (t : RecordType) : t.toByte < 256 := by
  cases t <;> simp [RecordType.toByte]

theorem length_bodyBytes (r : Record) :
    r.bodyBytes.length =
      1 + varintLen r.key.length + varintLen r.value.length
        + r.key.length + r.value.length := by
  simp [Record.bodyBytes, length_encodeVarint]
  try omega

theorem length_encode (r : Record) : r.encode.length = r.encoded_len := by
  simp [Record.encode, Record.encoded_len, length_bodyBytes, u32be]
  try omega

theorem ByteListOk.append {l1 l2 : List Nat} (h1 : ByteListOk l1)
    (h2 : ByteListOk l2) : ByteListOk (l1 ++ l2) := by
  intro b hb
  rcases List.mem_append.mp hb with h | h
  · exact h1 b h
  · exact h2 b h

theorem ByteListOk.cons {b : Nat} {l : List Nat} (hb : b < 256)
    (hl : ByteListOk l) : ByteListOk (b :: l) := by
  intro x hx
  rcases List.mem_cons.mp hx with rfl | h
  · exact hb
  · exact hl x h

theorem bodyBytes_bytes {r : Record} (hk : ByteListOk r.key)
    (hv : ByteListOk r.value) : ByteListOk r.bodyBytes :=
  ByteListOk.cons (toByte_lt r.record_type)
    ((((encodeVarint_bytes _).append (encodeVarint_bytes _)).append hk).append hv)

theorem encode_bytes {r : Record} (hk : ByteListOk r.key) (hv : ByteListOk r.value) :
    ByteListOk r.encode :=
  (bodyBytes_bytes hk hv).append (u32be_bytes _)

/-! ## Segment reads (`src/data/storage.rs`).  A positional read
(`seek_read` into a zeroed buffer of fixed size, ignoring the returned
byte count) is modelled by zero-padding past end of file. -/

/-- Positional read of `len` bytes at `off`: available file bytes,
zero-padded (the Rust code pre-zeroes the buffer and ignores the number
of bytes actually read). -/
def seekRead (file : List Nat) (len off : Nat) : List Nat :=
  (file.drop off ++ List.replicate len 0).take len

theorem length_seekRead (file : List Nat) (len off : Nat) :
    (seekRead file len off).length = len := by
  simp [seekRead]
  try omega

/-- A positional read whose window lies inside `l` (placed at `off` in the
file) returns exactly the in-file bytes. -/
theorem seekRead_exact {file l : List Nat} {off : Nat}
    (h : file.drop off = l) {len : Nat} (hlen : len ≤ l.length) :
    seekRead file len off = l.take len := by
  subst h
  exact List.take_append_of_le_length hlen

/-- `Storage::read_record_head_buf`: read 11 bytes, classify the type
byte, decode the two varint lengths, and reject an empty key. -/
def readRecordHeadBuf (file : List Nat) (off : Nat) :
    Except KvError ReadRecordHeaderBuf :=
  let buf := seekRead file 11 off
  let rt := recordTypeFromU8 (buf.headD 0 % 256)
  if rt = .UnexpectCommand then .error .ReadEOF
  else
    match decodeVarint buf.tail with
    | none => .error .DecodeError
    | some (ks, c1) =>
      match decodeVarint (buf.tail.drop c1) with
      | none => .error .DecodeError
      | some (vs, _) =>
        if ks = 0 then .error .InvalidKey
        else .ok ⟨rt, ks, vs⟩

/-- `Storage::read_key_from_header`: read exactly `key_size` bytes after
the header.  The Rust signature is fallible only through I/O. -/
def readKeyFromHeader (file : List Nat) (off : Nat)
    (hdr : ReadRecordHeaderBuf) : List Nat :=
  seekRead file hdr.key_size (off + hdr.get_header_len)

/-- `Storage::read_record`: parse the header, read key/value/CRC, and
compare the stored CRC with the CRC recomputed over the re-encoded
header and payload. -/
def readRecord (file : List Nat) (off : Nat) : Except KvError Record :=
  match readRecordHeadBuf file off with
  | .error e => .error e
  | .ok hdr =>
    let kv := seekRead file (hdr.key_size + hdr.value_size + 4)
      (off + hdr.get_header_len)
    let key := kv.take hdr.key_size
    let value := (kv.drop hdr.key_size).take hdr.value_size
    let crc := getU32be (kv.drop (hdr.key_size + hdr.value_size))
    let target : Record := ⟨key, value, hdr.record_type⟩
    let target_crc := crc32 target.bodyBytes
    if target_crc ≠ crc then .error .InvalidCrc else .ok target

/-- A record the engine can write: non-empty key, lengths within the
11-byte header window, and a real (non-reserved) type. -/
def RecordOk (r : Record) : Prop :=
  r.key ≠ [] ∧ r.key.length < 2 ^ 35 ∧ r.value.length < 2 ^ 35 ∧
    r.record_type ≠ .UnexpectCommand

theorem recordTypeFromU8_toByte {t : RecordType} (h : t ≠ .UnexpectCommand) :
    recordTypeFromU8 t.toByte = t := by
  cases t
  · exact absurd rfl h
  · rfl
  · rfl

theorem toByte_one_or_two {t : RecordType} (h : t ≠ .UnexpectCommand) :
    t.toByte = 1 ∨ t.toByte = 2 := by
  cases t
  · exact absurd rfl h
  · left; rfl
  · right; rfl

/-- Splitting a `take` across an append whose left part fits. -/
theorem take_append_split {a b : List Nat} {n : Nat} (h : a.length ≤ n) :
    (a ++ b).take n = a ++ b.take (n - a.length) := by
  rw [List.take_append_eq_append_take, List.take_of_length_le h]

/-- Header parsing from an 11-byte window that starts with a real type
byte and the two varint-encoded lengths. -/
theorem readRecordHeadBuf_parse {t klen vlen : Nat} (ht : t = 1 ∨ t = 2)
    (hk : klen ≠ 0) (hklt : klen < 2 ^ 35) (hvlt : vlen < 2 ^ 35)
    {Z file : List Nat} {off : Nat}
    (hbuf : seekRead file 11 off =
      t :: (encodeVarint klen ++ (encodeVarint vlen ++ Z))) :
    readRecordHeadBuf file off = .ok ⟨recordTypeFromU8 t, klen, vlen⟩ := by
  have hk64 : klen < 2 ^ 64 := by
    have : (2 : Nat) ^ 35 < 2 ^ 64 := by norm_num
    omega
  have hv64 : vlen < 2 ^ 64 := by
    have : (2 : Nat) ^ 35 < 2 ^ 64 := by norm_num
    omega
  have htu : recordTypeFromU8 t ≠ .UnexpectCommand := by
    rcases ht with rfl | rfl <;> simp [recordTypeFromU8]
  simp only [readRecordHeadBuf, hbuf, List.headD_cons, List.tail_cons]
  have htm : t % 256 = t := by rcases ht with rfl | rfl <;> norm_num
  rw [htm, if_neg htu]
  rw [decodeVarint_encode klen hk64]
  have hdrop : (encodeVarint klen ++ (encodeVarint vlen ++ Z)).drop (varintLen klen) =
      encodeVarint vlen ++ Z := by
    rw [← length_encodeVarint, List.drop_left]
  simp only [hdrop]
  rw [decodeVarint_encode vlen hv64]
  simp [hk]

/-- Reading the header at an offset whose first byte is a reserved type
byte (anything other than 1 and 2, in particular the 0 of a zeroed or
absent tail) fails with ReadEOF. -/
theorem readRecordHeadBuf_sentinel {file : List Nat} {off b : Nat}
    (hb : (seekRead file 11 off).headD 0 = b)
    (h1 : b % 256 ≠ 1) (h2 : b % 256 ≠ 2) :
    readRecordHeadBuf file off = .error .ReadEOF := by
  simp only [readRecordHeadBuf, hb]
  have : recordTypeFromU8 (b % 256) = .UnexpectCommand := by
    simp [recordTypeFromU8, h1, h2]
  rw [this]
  simp

/-- Reading past the end of the file yields the all-zero buffer and hence
ReadEOF. -/
theorem readRecordHeadBuf_eof {file : List Nat} {off : Nat}
    (h : file.length ≤ off) :
    readRecordHeadBuf file off = .error .ReadEOF := by
  apply readRecordHeadBuf_sentinel (b := 0) _ (by norm_num) (by norm_num)
  have hd : file.drop off = [] := List.drop_eq_nil_of_le h
  simp [seekRead, hd, List.replicate]

/-- The flattened byte context of an encoded record placed at `off`:
type byte, the two varints, key, value, CRC word, and trailing bytes. -/
theorem encode_context {r : Record} {file rest : List Nat} {off : Nat}
    (hctx : file.drop off = r.encode ++ rest) (tail9 : List Nat) :
    file.drop off ++ tail9 =
      r.record_type.toByte ::
        (encodeVarint r.key.length ++
          (encodeVarint r.value.length ++
            (r.key ++ (r.value ++ (u32be (crc32 r.bodyBytes) ++ (rest ++ tail9)))))) := by
  rw [hctx]
  simp [Record.encode, Record.bodyBytes, List.append_assoc]

/-- Parsing the header of an encoded well-formed record placed at `off`
(with arbitrary following bytes) recovers the type and both lengths. -/
theorem readRecordHeadBuf_encode {r : Record} (hr : RecordOk r)
    {file rest : List Nat} {off : Nat}
    (hctx : file.drop off = r.encode ++ rest) :
    readRecordHeadBuf file off =
      .ok ⟨r.record_type, r.key.length, r.value.length⟩ := by
  obtain ⟨hkne, hklt, hvlt, htne⟩ := hr
  have hvk5 := varintLen_le_five _ hklt
  have hvv5 := varintLen_le_five _ hvlt
  have hkl := length_encodeVarint r.key.length
  have hvl := length_encodeVarint r.value.length
  have hbuf : seekRead file 11 off =
      r.record_type.toByte ::
        (encodeVarint r.key.length ++
          (encodeVarint r.value.length ++
            ((r.key ++ (r.value ++ (u32be (crc32 r.bodyBytes) ++ (rest ++
              List.replicate 11 0)))).take
                (10 - varintLen r.key.length - varintLen r.value.length)))) := by
    rw [seekRead, encode_context hctx (List.replicate 11 0)]
    rw [show (11 : Nat) = 10 + 1 from rfl, List.take_succ_cons]
    rw [take_append_split (by omega), take_append_split (by omega), hkl, hvl]
  have ht : r.record_type.toByte = 1 ∨ r.record_type.toByte = 2 :=
    toByte_one_or_two htne
  have hk0 : r.key.length ≠ 0 := by
    intro h
    exact hkne (List.length_eq_zero.mp h)
  rw [readRecordHeadBuf_parse ht hk0 hklt hvlt hbuf,
    recordTypeFromU8_toByte htne]

/-- Reading the key of an encoded record from its parsed header recovers
the key. -/
theorem readKeyFromHeader_encode {r : Record} (hr : RecordOk r)
    {file rest : List Nat} {off : Nat}
    (hctx : file.drop off = r.encode ++ rest) :
    readKeyFromHeader file off ⟨r.record_type, r.key.length, r.value.length⟩ =
      r.key := by
  obtain ⟨hkne, hklt, hvlt, htne⟩ := hr
  have hdrop : file.drop
      (off + (varintLen r.key.length + varintLen r.value.length + 1)) =
      r.key ++ (r.value ++ (u32be (crc32 r.bodyBytes) ++ rest)) := by
    rw [← List.drop_drop, hctx]
    have he : r.encode ++ rest =
        (r.record_type.toByte ::
          (encodeVarint r.key.length ++ encodeVarint r.value.length)) ++
          (r.key ++ (r.value ++ (u32be (crc32 r.bodyBytes) ++ rest))) := by
      simp [Record.encode, Record.bodyBytes, List.append_assoc]
    rw [he, List.drop_left']
    simp [length_encodeVarint]
  simp only [readKeyFromHeader, ReadRecordHeaderBuf.get_header_len]
  rw [seekRead_exact hdrop (by simp)]
  exact List.take_left' rfl

/-- Round-trip: reading at an offset holding an encoded well-formed
record (with arbitrary bytes after it) returns exactly that record. -/
theorem readRecord_encode {r : Record} (hr : RecordOk r)
    {file rest : List Nat} {off : Nat}
    (hctx : file.drop off = r.encode ++ rest) :
    readRecord file off = .ok r := by
  have hhdr := readRecordHeadBuf_encode hr hctx
  obtain ⟨hkne, hklt, hvlt, htne⟩ := hr
  rw [readRecord, hhdr]
  have hdrop : file.drop
      (off + ReadRecordHeaderBuf.get_header_len ⟨r.record_type, r.key.length, r.value.length⟩) =
      (r.key ++ r.value ++ u32be (crc32 r.bodyBytes)) ++ rest := by
    rw [← List.drop_drop, hctx]
    have he : r.encode ++ rest =
        (r.record_type.toByte ::
          (encodeVarint r.key.length ++ encodeVarint r.value.length)) ++
          ((r.key ++ r.value ++ u32be (crc32 r.bodyBytes)) ++ rest) := by
      simp [Record.encode, Record.bodyBytes, List.append_assoc]
    rw [he, List.drop_left']
    simp [ReadRecordHeaderBuf.get_header_len, length_encodeVarint]
  have hkv : seekRead file (r.key.length + r.value.length + 4)
      (off + ReadRecordHeaderBuf.get_header_len ⟨r.record_type, r.key.length, r.value.length⟩) =
      r.key ++ r.value ++ u32be (crc32 r.bodyBytes) := by
    rw [seekRead_exact hdrop (by simp [u32be]; omega)]
    apply List.take_left'
    simp [u32be]
    omega
  simp only [hkv]
  have hkey : (r.key ++ r.value ++ u32be (crc32 r.bodyBytes)).take r.key.length = r.key := by
    rw [List.append_assoc]
    exact List.take_left' rfl
  have hval : ((r.key ++ r.value ++ u32be (crc32 r.bodyBytes)).drop r.key.length).take
      r.value.length = r.value := by
    rw [List.append_assoc, List.drop_left]
    exact List.take_left' rfl
  have hcrc : (r.key ++ r.value ++ u32be (crc32 r.bodyBytes)).drop
      (r.key.length + r.value.length) = u32be (crc32 r.bodyBytes) := by
    apply List.drop_left'
    simp
  rw [hkey, hval, hcrc]
  have hget : getU32be (u32be (crc32 r.bodyBytes)) = crc32 r.bodyBytes := by
    have := getU32be_u32be (crc32 r.bodyBytes) (crc32_lt _) []
    simpa using this
  rw [hget]
  simp

/-! ## The ordered index (`src/index/btree.rs`).  `BTreeMap<Vec<u8>, RecordPos>`
is modelled as an association list kept strictly sorted by the
lexicographic byte order that `Ord` gives `Vec<u8>`.  `put` inserts or
replaces, `get` looks up, `delete` removes. -/

/-- Lexicographic strict order on byte strings, as `Ord` on `Vec<u8>`:
elementwise comparison, a strict prefix is smaller. -/
def lexLt : List Nat → List Nat → Bool
  | [], [] => false
  | [], _ :: _ => true
  | _ :: _, [] => false
  | a :: as, b :: bs => if a < b then true else if a = b then lexLt as bs else false

/-- The in-memory index: a `key to position` map in ascending key order. -/
def Idx : Type := List (List Nat × RecordPos)

instance : DecidableEq Idx := by
  unfold Idx; infer_instance

/-- `Index::get`. -/
def idxGet : Idx → List Nat → Option RecordPos
  | [], _ => none
  | (k, p) :: rest, q => if k = q then some p else idxGet rest q

/-- `Index::put`: insert or replace, keeping ascending key order. -/
def idxPut : Idx → List Nat → RecordPos → Idx
  | [], k, p => [(k, p)]
  | (k1, p1) :: rest, k, p =>
    if lexLt k k1 then (k, p) :: (k1, p1) :: rest
    else if k = k1 then (k, p) :: rest
    else (k1, p1) :: idxPut rest k p

/-- `Index::delete`: remove the key if present. -/
def idxDelete : Idx → List Nat → Idx
  | [], _ => []
  | (k1, p1) :: rest, k => if k = k1 then rest else (k1, p1) :: idxDelete rest k

/-- The ascending strictly-sorted invariant `BTreeMap` iteration enjoys. -/
def IdxSorted (m : Idx) : Prop :=
  List.Pairwise (fun a b => lexLt a.1 b.1 = true) m

/-! ## Iterators (`src/index/btree.rs`, `src/iterator.rs`). -/

/-- Iterator configuration; the source field `prefix` is renamed `pfx`. -/
structure IteratorConfig where
  pfx : List Nat
  reverse : Bool
deriving DecidableEq, Repr

/-- The `Default` configuration: empty prefix, not reversed. -/
def IteratorConfig.default : IteratorConfig := ⟨[], false⟩

/-- `BTreeIterator`: the snapshot of the map plus a cursor. -/
structure BTreeIterator where
  items : List (List Nat × RecordPos)
  current_index : Nat
  config : IteratorConfig
deriving DecidableEq, Repr

/-- `BTree::iterator`: snapshot the map in ascending order and reverse it
when requested. -/
def BTree.iterator (m : Idx) (config : IteratorConfig) : BTreeIterator :=
  { items := if config.reverse then List.reverse m else m,
    current_index := 0, config := config }

/-- `BTreeIterator::rewind`. -/
def BTreeIterator.rewind (it : BTreeIterator) : BTreeIterator :=
  { it with current_index := 0 }

/-- The index `binary_search_by` lands on, per its contract on the sorted
snapshot: the number of items strictly before `key` in iteration order
(ascending order, or descending when `reverse` is set).  On a strictly
sorted slice `binary_search_by` returns `Ok(i)` with `i` the unique
matching index, or `Err(i)` with `i` the insertion point; both equal this
count, which is the value the `match` in the source extracts. -/
def seekIndex (items : List (List Nat × RecordPos)) (config : IteratorConfig)
    (key : List Nat) : Nat :=
  items.countP (fun it => if config.reverse then lexLt key it.1 else lexLt it.1 key)

/-- `BTreeIterator::seek`. -/
def BTreeIterator.seek (it : BTreeIterator) (key : List Nat) : BTreeIterator :=
  { it with current_index := seekIndex it.items it.config key }

/-- The `while let Some(item) = self.items.get(self.current_index)` loop
of `BTreeIterator::next`: advance the cursor past items that fail the
prefix filter and yield the first that passes.  The fuel is the number
of remaining items, which bounds the iteration count. -/
def btreeNextGo (items : List (List Nat × RecordPos)) (pfx : List Nat) :
    Nat → Nat → Nat × Option (List Nat × RecordPos)
  | 0, ci => (ci, none)
  | fuel + 1, ci =>
    match items.get? ci with
    | none => (ci, none)
    | some item =>
      if pfx.isEmpty || pfx.isPrefixOf item.1 then (ci + 1, some item)
      else btreeNextGo items pfx fuel (ci + 1)

/-- `BTreeIterator::next`: returns the advanced iterator and the yielded
item, if any. -/
def BTreeIterator.next (it : BTreeIterator) :
    BTreeIterator × Option (List Nat × RecordPos) :=
  if it.items.length ≤ it.current_index then (it, none)
  else
    let res := btreeNextGo it.items it.config.pfx
      (it.items.length - it.current_index) it.current_index
    ({ it with current_index := res.1 }, res.2)

/-! ## Engine state (`src/engine.rs`).  One active segment, a map of
frozen segments, the index, and a configuration.  A `Storage` carries its
generation, its in-memory write offset, and its file contents; I/O
failure injection flags model the fallible `write`/`sync`/`Storage::new`
calls of the append path. -/

/-- A segment (`Storage`): generation, in-memory write offset, file. -/
structure Storage where
  gen : Nat
  offset : Nat
  file : List Nat
deriving DecidableEq, Repr

/-- `Storage::write`: append and advance the offset by the bytes written. -/
def Storage.write (s : Storage) (buf : List Nat) : Storage :=
  { s with file := s.file ++ buf, offset := s.offset + buf.length }

/-- `Storage::set_offset`. -/
def Storage.set_offset (s : Storage) (off : Nat) : Storage :=
  { s with offset := off }

/-- Engine configuration (`Config`): the rollover threshold and the
write-through flag; `dir_path` and the single index variant carry no
information the model needs. -/
structure Config where
  storage_size : Nat
  sync_write : Bool
deriving DecidableEq, Repr

/-- Failure injection for the five fallible I/O calls on the append
path: the pre-rollover fsync, the append write, the optional
write-through fsync, the `Storage::new` creating the next-generation
active segment, and the `Storage::new` reopening the rolled-over old
segment. -/
structure IOFails where
  sync_roll : Bool
  write : Bool
  sync_write : Bool
  new_active : Bool
  reopen_old : Bool
deriving DecidableEq, Repr

/-- All I/O succeeds. -/
def noFail : IOFails := ⟨false, false, false, false, false⟩

/-- The engine: configuration, active segment, frozen segments keyed by
generation (`HashMap` modelled as an association list whose most recent
insertion shadows older ones), and the index. -/
structure Engine where
  config : Config
  active_storage : Storage
  older_storages : List (Nat × Storage)
  index : Idx
deriving DecidableEq

/-- `HashMap::get` over the frozen-segment map. -/
def olderLookup : List (Nat × Storage) → Nat → Option Storage
  | [], _ => none
  | (g, s) :: rest, q => if g = q then some s else olderLookup rest q

/-- The write-and-optional-sync tail of `Engine::append_record`, after the
rollover decision: append the encoded bytes, fsync when `sync_write` is
configured, and return the position built from the offset read at entry. -/
def appendWriteTail (e : Engine) (offset : Nat) (record_data : List Nat)
    (io : IOFails) : Engine × Except KvError RecordPos :=
  if io.write then (e, .error .Io)
  else
    let e2 := { e with active_storage := e.active_storage.write record_data }
    if e.config.sync_write && io.sync_write then (e2, .error .Io)
    else (e2, .ok ⟨e2.active_storage.gen, offset⟩)

/-- `Engine::append_record`: read the offset, roll over when the record
would cross the threshold, then append.  The rollover follows the
source's call order: fsync the active segment, create the
next-generation segment with a fallible `Storage::new` and assign it to
the active slot, then reopen the old segment with a second fallible
`Storage::new` and insert it (a fresh handle whose in-memory offset is
0) into the frozen map.  A failure of that second `Storage::new` fires
after the active slot was already replaced, leaving the old segment in
neither the active slot nor the frozen map.  The returned position uses
the offset read before the rollover decision, exactly as the source
does. -/
def Engine.append_record (e : Engine) (r : Record) (io : IOFails) :
    Engine × Except KvError RecordPos :=
  let record_data := r.encode
  let offset := e.active_storage.offset
  if offset + record_data.length > e.config.storage_size then
    if io.sync_roll then (e, .error .Io)
    else if io.new_active then (e, .error .Io)
    else
      let old_gen := e.active_storage.gen
      let old_file := e.active_storage.file
      let e1 : Engine :=
        ⟨e.config, ⟨old_gen + 1, 0, []⟩, e.older_storages, e.index⟩
      if io.reopen_old then (e1, .error .Io)
      else
        let e2 : Engine :=
          ⟨e.config, ⟨old_gen + 1, 0, []⟩,
            (old_gen, ⟨old_gen, 0, old_file⟩) :: e.older_storages, e.index⟩
        appendWriteTail e2 offset record_data io
  else appendWriteTail e offset record_data io

/-- `Engine::read_value_from_pos`: read from the active segment when the
generation matches, else from the frozen map; a missing generation is
InvalidKey. -/
def Engine.read_value_from_pos (e : Engine) (pos : RecordPos) :
    Except KvError (List Nat) :=
  if e.active_storage.gen = pos.gen then
    (readRecord e.active_storage.file pos.offset).map (fun r => r.value)
  else
    match olderLookup e.older_storages pos.gen with
    | some storage => (readRecord storage.file pos.offset).map (fun r => r.value)
    | none => .error .InvalidKey

/-- `Engine::set`: reject the empty key, append a Normal record, then put
the returned position into the index.  Returns the engine state after the
call together with the error, if any. -/
def Engine.set (e : Engine) (key value : List Nat) (io : IOFails) :
    Engine × Option KvError :=
  if key.isEmpty then (e, some .InvalidKey)
  else
    let record := Record.new_set key value
    match e.append_record record io with
    | (e1, .error er) => (e1, some er)
    | (e1, .ok pos) => ({ e1 with index := idxPut e1.index record.key pos }, none)

/-- `Engine::get`: reject the empty key, consult the index, then read the
value at the stored position. -/
def Engine.get (e : Engine) (key : List Nat) : Except KvError (List Nat) :=
  if key.isEmpty then .error .InvalidKey
  else
    match idxGet e.index key with
    | none => .error .InvalidKey
    | some pos => e.read_value_from_pos pos

/-- `Engine::delete`: reject the empty key, require the key to be
present, append a Remove record, then remove the index entry. -/
def Engine.delete (e : Engine) (key : List Nat) (io : IOFails) :
    Engine × Option KvError :=
  if key.isEmpty then (e, some .InvalidKey)
  else
    match idxGet e.index key with
    | none => (e, some .InvalidKey)
    | some _ =>
      let record := Record.new_remove key
      match e.append_record record io with
      | (e1, .error er) => (e1, some er)
      | (e1, .ok _) => ({ e1 with index := idxDelete e1.index record.key }, none)

/-! ## Recovery (`build_index_from_storage`) and open (`Engine::new`). -/

/-- The per-segment replay loop of `build_index_from_storage`: read a
header at `offset`; ReadEOF stops the segment, other errors propagate;
otherwise read the key, apply the record to the index (put for Normal,
delete for Remove, stop on the reserved type), and advance by the encoded
length.  Returns the final index and the final offset.  The fuel only
bounds the iteration count; `file.length + 1` is always sufficient
because each step advances the offset by at least eight bytes and any
offset at or past the end of the file reads as a zero type byte. -/
def scanSegment (gen : Nat) (file : List Nat) :
    Nat → Nat → Idx → Except KvError (Idx × Nat)
  | 0, offset, idx => .ok (idx, offset)
  | fuel + 1, offset, idx =>
    match readRecordHeadBuf file offset with
    | .error .ReadEOF => .ok (idx, offset)
    | .error e => .error e
    | .ok record =>
      let record_size := record.encoded_len
      let key := readKeyFromHeader file offset record
      let record_mate : RecordPos := ⟨gen, offset⟩
      match record.record_type with
      | .UnexpectCommand => .ok (idx, offset)
      | .Normal =>
        scanSegment gen file fuel (offset + record_size) (idxPut idx key record_mate)
      | .Remove =>
        scanSegment gen file fuel (offset + record_size) (idxDelete idx key)

/-- `build_index_from_storage`: replay every segment in list order into
the index, setting each segment offset to its final replay offset. -/
def buildIndexFromStorage : List Storage → Idx → Except KvError (Idx × List Storage)
  | [], idx => .ok (idx, [])
  | s :: rest, idx =>
    match scanSegment s.gen s.file (s.file.length + 1) 0 idx with
    | .error e => .error e
    | .ok (idx1, off) =>
      match buildIndexFromStorage rest idx1 with
      | .error e => .error e
      | .ok (idx2, ss) => .ok (idx2, s.set_offset off :: ss)

/-! ## Segment file names (`is_storage_file`, `storage_name_from_gen`). -/

/-- `Path::extension` of a file name: the portion after the final dot,
unless there is no dot or the only dot is leading. -/
def fileExtension (name : List Char) : Option (List Char) :=
  let rev := name.reverse
  if rev.contains '.' then
    let after := (rev.takeWhile (fun c => c ≠ '.')).reverse
    let before := ((rev.dropWhile (fun c => c ≠ '.')).drop 1).reverse
    if before.isEmpty then none else some after
  else none

/-- The loop of `str::trim_end_matches(".storage")`: strip every trailing
occurrence of the suffix.  The fuel (the name length) bounds the number
of removals. -/
def trimEndGo : Nat → List Char → List Char
  | 0, s => s
  | f + 1, s =>
    if (".storage".toList).isSuffixOf s then trimEndGo f (s.take (s.length - 8))
    else s

/-- `name.trim_end_matches(".storage")`. -/
def trimEndDotStorage (name : List Char) : List Char :=
  trimEndGo name.length name

/-- An ASCII decimal digit (code points 48 to 57). -/
def charIsDigit (c : Char) : Bool := 48 ≤ c.toNat && c.toNat ≤ 57

/-- Strip one optional leading plus sign, as `parse::<u32>` allows. -/
def stripPlus : List Char → List Char
  | '+' :: rest => rest
  | s => s

/-- `str::parse::<u32>`: an optional leading plus sign, one or more
ASCII digits, and no overflow past `u32::MAX`. -/
def parseU32 (s : List Char) : Option Nat :=
  let digits := stripPlus s
  if digits.isEmpty then none
  else if digits.all charIsDigit then
    let v := digits.foldl (fun acc c => acc * 10 + (c.toNat - 48)) 0
    if v < 2 ^ 32 then some v else none
  else none

/-- The numeric value of a digit string, as `parse::<u32>` accumulates
it. -/
def digitsVal (ds : List Char) : Nat :=
  ds.foldl (fun acc c => acc * 10 + (c.toNat - 48)) 0

/-- `is_storage_file`: a regular file whose extension is `storage` and
whose name, after stripping every trailing `.storage`, parses as a `u32`;
everything else is InvalidPath.  `isFile` abstracts `Path::is_file`. -/
def is_storage_file (isFile : Bool) (name : List Char) : Except KvError Nat :=
  if !isFile || fileExtension name ≠ some ("storage".toList) then .error .InvalidPath
  else
    match parseU32 (trimEndDotStorage name) with
    | some gen => .ok gen
    | none => .error .InvalidPath

/-- Decimal digits of `n`, most significant first (fuel-structured). -/
def natDigitsGo : Nat → Nat → List Char
  | 0, n => [Char.ofNat (48 + n)]
  | f + 1, n =>
    if n < 10 then [Char.ofNat (48 + n)]
    else natDigitsGo f (n / 10) ++ [Char.ofNat (48 + n % 10)]

/-- Decimal digits of `n`, most significant first. -/
def natDigits (n : Nat) : List Char := natDigitsGo n n

/-- `storage_name_from_gen`: `format!("{:09}{}", gen, ".storage")`. -/
def storage_name_from_gen (gen : Nat) : List Char :=
  List.replicate (9 - (natDigits gen).length) '0' ++ natDigits gen ++ ".storage".toList

/-- A directory entry visible to `Engine::new`: its file name, whether it
is a regular file, and its contents. -/
structure DirEntry where
  name : List Char
  isFile : Bool
  content : List Nat
deriving DecidableEq, Repr

/-- Stable insertion into a gen-sorted list (`sort_by_key` is stable). -/
def insertByGen (s : Storage) : List Storage → List Storage
  | [] => [s]
  | t :: rest => if t.gen < s.gen then t :: insertByGen s rest else s :: t :: rest

/-- Sort segments ascending by generation. -/
def sortByGen : List Storage → List Storage
  | [] => []
  | s :: rest => insertByGen s (sortByGen rest)

/-- `load_storages_sorted`: open every directory entry that parses as a
segment (others are silently skipped by `.ok()`), then sort ascending by
generation.  A freshly opened segment has in-memory offset 0. -/
def load_storages_sorted (dir : List DirEntry) : List Storage :=
  sortByGen (dir.filterMap (fun entry =>
    match is_storage_file entry.isFile entry.name with
    | .ok gen => some ⟨gen, 0, entry.content⟩
    | .error _ => none))

/-- `Engine::new`: load and sort the segments, replay them into a fresh
index, promote the highest generation to active (or create generation 0
over an empty directory), and key the rest by generation. -/
def Engine.new (config : Config) (dir : List DirEntry) : Except KvError Engine :=
  let storages := load_storages_sorted dir
  match buildIndexFromStorage storages [] with
  | .error e => .error e
  | .ok (index, storages2) =>
    match storages2.getLast? with
    | none => .ok ⟨config, ⟨0, 0, []⟩, [], index⟩
    | some active =>
      .ok ⟨config, active, storages2.dropLast.map (fun s => (s.gen, s)), index⟩

/-- The directory contents an engine state leaves on disk: the active
segment file plus every frozen segment file, under their canonical
names. -/
def Engine.diskEntries (e : Engine) : List DirEntry :=
  ⟨storage_name_from_gen e.active_storage.gen, true, e.active_storage.file⟩ ::
    e.older_storages.map (fun gs => ⟨storage_name_from_gen gs.1, true, gs.2.file⟩)

/-! ## The user-facing iterator (`src/iterator.rs`). -/

/-- The user-facing iterator holds the engine and an index iterator. -/
structure UserIterator where
  index_iter : BTreeIterator
deriving DecidableEq, Repr

/-- `Engine::iter`. -/
def Engine.iter (e : Engine) (config : IteratorConfig) : UserIterator :=
  ⟨BTree.iterator e.index config⟩

/-- `Iterator::next`: take the next `(key, pos)` from the index iterator
and read the value at `pos`; `.ok()` turns a read failure into `None`
for this call (the cursor has already advanced). -/
def UserIterator.next (e : Engine) (it : UserIterator) :
    UserIterator × Option (List Nat × List Nat) :=
  let res := it.index_iter.next
  match res.2 with
  | none => (⟨res.1⟩, none)
  | some (key, pos) =>
    match e.read_value_from_pos pos with
    | .ok value => (⟨res.1⟩, some (key, value))
    | .error _ => (⟨res.1⟩, none)

/-! ## Helper lemmas about the engine operations. -/

theorem length_encode_ge_eight (r : Record) (h : r.key ≠ []) :
    8 ≤ r.encode.length := by
  rw [length_encode, Record.encoded_len]
  have h1 := varintLen_pos r.key.length
  have h2 := varintLen_pos r.value.length
  have h3 : 0 < r.key.length := List.length_pos.mpr h
  omega

/-- A successful non-rollover append under `noFail`. -/
theorem append_record_no_rollover (e : Engine) (r : Record)
    (h : e.active_storage.offset + r.encode.length ≤ e.config.storage_size) :
    e.append_record r noFail =
      ({ e with active_storage := e.active_storage.write r.encode },
        .ok ⟨e.active_storage.gen, e.active_storage.offset⟩) := by
  have hno : ¬(e.active_storage.offset + r.encode.length > e.config.storage_size) := by
    omega
  simp [Engine.append_record, hno, appendWriteTail, noFail, Storage.write]

/-- A successful rollover append under `noFail`: the record lands at the
start of a fresh segment at the next generation, the old segment is
frozen with offset 0, and the returned position carries the stale
pre-rollover offset. -/
theorem append_record_rollover (e : Engine) (r : Record)
    (h : e.active_storage.offset + r.encode.length > e.config.storage_size) :
    e.append_record r noFail =
      (⟨e.config, ⟨e.active_storage.gen + 1, r.encode.length, r.encode⟩,
          (e.active_storage.gen, ⟨e.active_storage.gen, 0, e.active_storage.file⟩) ::
            e.older_storages, e.index⟩,
        .ok ⟨e.active_storage.gen + 1, e.active_storage.offset⟩) := by
  simp [Engine.append_record, h, appendWriteTail, noFail, Storage.write]

/-- C3 helper: a successful `set` that does not roll over. -/
theorem set_no_rollover (e : Engine) (k v : List Nat) (hk : k ≠ [])
    (h : e.active_storage.offset + (Record.new_set k v).encode.length ≤
      e.config.storage_size) :
    e.set k v noFail =
      ({ e with
          active_storage := e.active_storage.write (Record.new_set k v).encode,
          index := idxPut e.index k
            ⟨e.active_storage.gen, e.active_storage.offset⟩ }, none) := by
  have hke : ¬k.isEmpty := by simp [hk]
  simp only [Engine.set, hke, Bool.false_eq_true, if_false,
    append_record_no_rollover e (Record.new_set k v) h]
  rfl

/-- C3 helper: a successful `delete` that does not roll over. -/
theorem delete_no_rollover (e : Engine) (k : List Nat) (hk : k ≠ [])
    (pos : RecordPos) (hmem : idxGet e.index k = some pos)
    (h : e.active_storage.offset + (Record.new_remove k).encode.length ≤
      e.config.storage_size) :
    e.delete k noFail =
      ({ e with
          active_storage := e.active_storage.write (Record.new_remove k).encode,
          index := idxDelete e.index k }, none) := by
  have hke : ¬k.isEmpty := by simp [hk]
  simp only [Engine.delete, hke, Bool.false_eq_true, if_false, hmem,
    append_record_no_rollover e (Record.new_remove k) h]
  rfl

/-! ## Claim theorems. -/

/-- C3.  Rollover threshold invariant: if the current offset plus the
encoded length exceeds `storage_size`, rollover happens before the bytes
are appended — the new active segment is at generation old+1 and holds
exactly the new bytes, while the frozen old segment holds exactly its old
bytes; and a successful append that did not trigger rollover leaves the
active offset at most `storage_size`. -/
theorem rollover_threshold_invariant (e : Engine) (r : Record) :
    (e.active_storage.offset + r.encode.length > e.config.storage_size →
      ((e.append_record r noFail).1.active_storage.gen = e.active_storage.gen + 1 ∧
        (e.append_record r noFail).1.active_storage.file = r.encode ∧
        (e.append_record r noFail).1.active_storage.offset = r.encode.length ∧
        olderLookup (e.append_record r noFail).1.older_storages e.active_storage.gen =
          some ⟨e.active_storage.gen, 0, e.active_storage.file⟩)) ∧
    (e.active_storage.offset + r.encode.length ≤ e.config.storage_size →
      ((e.append_record r noFail).2 =
          .ok ⟨e.active_storage.gen, e.active_storage.offset⟩ ∧
        (e.append_record r noFail).1.active_storage.offset =
          e.active_storage.offset + r.encode.length ∧
        (e.append_record r noFail).1.active_storage.offset ≤
          e.config.storage_size ∧
        (e.append_record r noFail).1.active_storage.gen = e.active_storage.gen)) := by
  constructor
  · intro h
    rw [append_record_rollover e r h]
    simp [olderLookup]
  · intro h
    rw [append_record_no_rollover e r h]
    simp [Storage.write]
    omega

/-- C3 witness: a concrete rollover append and a concrete plain append. -/
theorem rollover_threshold_invariant_witness :
    ((Engine.append_record ⟨⟨8, false⟩, ⟨0, 9, List.replicate 9 7⟩, [], []⟩
        ⟨[107], [118], .Normal⟩ noFail).1.active_storage.gen = 0 + 1 ∧
      (Engine.append_record ⟨⟨8, false⟩, ⟨0, 9, List.replicate 9 7⟩, [], []⟩
        ⟨[107], [118], .Normal⟩ noFail).1.active_storage.offset =
          (Record.encode ⟨[107], [118], .Normal⟩).length) ∧
    ((Engine.append_record ⟨⟨100, false⟩, ⟨0, 0, []⟩, [], []⟩
        ⟨[107], [118], .Normal⟩ noFail).1.active_storage.offset ≤ 100) := by
  constructor
  · have h := (rollover_threshold_invariant
      ⟨⟨8, false⟩, ⟨0, 9, List.replicate 9 7⟩, [], []⟩ ⟨[107], [118], .Normal⟩).1
      (by decide)
    exact ⟨h.1, h.2.2.1⟩
  · exact ((rollover_threshold_invariant
      ⟨⟨100, false⟩, ⟨0, 0, []⟩, [], []⟩ ⟨[107], [118], .Normal⟩).2
      (by decide)).2.2.1

/-- C9.  Every type byte other than 1 and 2 maps to UnexpectCommand;
reading a header whose type byte is such a value yields ReadEOF; and the
recovery scan of a segment stops, with the index and offset as they
stand, at an offset whose header read yields ReadEOF. -/
theorem reserved_type_bytes_stop_scan :
    (∀ b : Nat, b ≠ 1 → b ≠ 2 → recordTypeFromU8 b = .UnexpectCommand) ∧
    (∀ (file : List Nat) (off b : Nat), (seekRead file 11 off).headD 0 = b →
      b % 256 ≠ 1 → b % 256 ≠ 2 →
      readRecordHeadBuf file off = .error .ReadEOF) ∧
    (∀ (gen : Nat) (file : List Nat) (fuel off : Nat) (idx : Idx),
      readRecordHeadBuf file off = .error .ReadEOF →
      scanSegment gen file (fuel + 1) off idx = .ok (idx, off)) := by
  refine ⟨?_, ?_, ?_⟩
  · intro b h1 h2
    simp [recordTypeFromU8, h1, h2]
  · intro file off b hb h1 h2
    exact readRecordHeadBuf_sentinel hb h1 h2
  · intro gen file fuel off idx h
    simp [scanSegment, h]

/-- C9 witness: the type byte 3 at offset 0 of a one-byte segment. -/
theorem reserved_type_bytes_stop_scan_witness :
    recordTypeFromU8 3 = .UnexpectCommand ∧
    readRecordHeadBuf [3] 0 = .error .ReadEOF ∧
    scanSegment 0 [3] 2 0 [] = .ok ([], 0) := by
  refine ⟨reserved_type_bytes_stop_scan.1 3 (by decide) (by decide), ?_, ?_⟩
  · exact reserved_type_bytes_stop_scan.2.1 [3] 0 3 (by decide) (by decide) (by decide)
  · exact reserved_type_bytes_stop_scan.2.2 0 [3] 1 0 []
      (reserved_type_bytes_stop_scan.2.1 [3] 0 3 (by decide) (by decide) (by decide))

/-- C7 counterexample: a rollover-triggering append on an engine whose
active segment sits at offset 9 freezes that segment with in-memory
offset 0, not 9 (the position at which the next append would have
landed). -/
theorem rollover_frozen_offset_zero :
    (olderLookup (Engine.append_record
        ⟨⟨8, false⟩, ⟨0, 9, List.replicate 9 7⟩, [], []⟩
        ⟨[107], [118], .Normal⟩ noFail).1.older_storages 0).map Storage.offset =
      some 0 ∧
    (Engine.append_record ⟨⟨8, false⟩, ⟨0, 9, List.replicate 9 7⟩, [], []⟩
        ⟨[107], [118], .Normal⟩ noFail).2 =
      .ok ⟨1, 9⟩ ∧ (0 : Nat) ≠ 9 := by
  decide

/-- C7 amended.  Offset accounting: an append advances the active offset
by exactly the appended byte count (and preserves offset-equals-length);
a rollover gives the new active segment offset equal to its byte count;
recovery sets each replayed segment offset to its final replay offset;
but a segment frozen by rollover carries in-memory offset 0. -/
theorem offset_accounting (e : Engine) (r : Record) :
    (e.active_storage.offset + r.encode.length ≤ e.config.storage_size →
      ((e.append_record r noFail).1.active_storage.offset =
          e.active_storage.offset + r.encode.length ∧
        (e.active_storage.offset = e.active_storage.file.length →
          (e.append_record r noFail).1.active_storage.offset =
            (e.append_record r noFail).1.active_storage.file.length))) ∧
    (e.active_storage.offset + r.encode.length > e.config.storage_size →
      ((e.append_record r noFail).1.active_storage.offset =
          (e.append_record r noFail).1.active_storage.file.length ∧
        olderLookup (e.append_record r noFail).1.older_storages
            e.active_storage.gen =
          some ⟨e.active_storage.gen, 0, e.active_storage.file⟩)) ∧
    (∀ (s : Storage) (rest : List Storage) (idx idx1 idx2 : Idx)
        (off : Nat) (ss : List Storage),
      scanSegment s.gen s.file (s.file.length + 1) 0 idx = .ok (idx1, off) →
      buildIndexFromStorage rest idx1 = .ok (idx2, ss) →
      buildIndexFromStorage (s :: rest) idx = .ok (idx2, s.set_offset off :: ss)) := by
  refine ⟨?_, ?_, ?_⟩
  · intro h
    rw [append_record_no_rollover e r h]
    simp [Storage.write]
  · intro h
    rw [append_record_rollover e r h]
    simp [olderLookup]
  · intro s rest idx idx1 idx2 off ss h1 h2
    simp [buildIndexFromStorage, h1, h2]

/-- C7 amended witness: concrete instances of all three clauses. -/
theorem offset_accounting_witness :
    ((Engine.append_record ⟨⟨100, false⟩, ⟨0, 0, []⟩, [], []⟩
        ⟨[107], [118], .Normal⟩ noFail).1.active_storage.offset = 0 +
          (Record.encode ⟨[107], [118], .Normal⟩).length) ∧
    ((Engine.append_record ⟨⟨8, false⟩, ⟨0, 9, List.replicate 9 7⟩, [], []⟩
        ⟨[107], [118], .Normal⟩ noFail).1.active_storage.offset =
      (Engine.append_record ⟨⟨8, false⟩, ⟨0, 9, List.replicate 9 7⟩, [], []⟩
        ⟨[107], [118], .Normal⟩ noFail).1.active_storage.file.length) ∧
    buildIndexFromStorage [⟨0, 0, [0, 0]⟩] [] = .ok ([], [⟨0, 0, [0, 0]⟩]) := by
  refine ⟨?_, ?_, ?_⟩
  · exact ((offset_accounting ⟨⟨100, false⟩, ⟨0, 0, []⟩, [], []⟩
      ⟨[107], [118], .Normal⟩).1 (by decide)).1
  · exact ((offset_accounting ⟨⟨8, false⟩, ⟨0, 9, List.replicate 9 7⟩, [], []⟩
      ⟨[107], [118], .Normal⟩).2.1 (by decide)).1
  · exact (offset_accounting ⟨⟨100, false⟩, ⟨0, 0, []⟩, [], []⟩
      ⟨[107], [118], .Normal⟩).2.2 ⟨0, 0, [0, 0]⟩ [] [] [] [] 0 []
      (by decide) (by decide)

/-- A sample engine whose index holds one entry at a missing generation
followed by one readable entry; used to exercise the iterator. -/
def eIterSample : Engine :=
  ⟨⟨100, false⟩, ⟨0, 9, (Record.new_set [2] [9]).encode⟩, [],
    [([1], ⟨5, 0⟩), ([2], ⟨0, 0⟩)]⟩

set_option maxRecDepth 40000 in
/-- C6 counterexample: the first index entry points at a missing
generation, so the read fails and `next` returns `None` for this call —
even though the following entry is readable (a second `next` yields it).
The claimed skip-and-continue behavior would have yielded it on the
first call. -/
theorem iter_next_failure_returns_none :
    (UserIterator.next eIterSample
        (eIterSample.iter IteratorConfig.default)).2 = none ∧
    (UserIterator.next eIterSample
        (UserIterator.next eIterSample
          (eIterSample.iter IteratorConfig.default)).1).2 = some ([2], [9]) := by
  decide

/-- C6 amended.  When the index iterator yields a pair whose segment read
fails, `next` returns `None` for that call; the cursor has advanced past
the failed entry, so a subsequent call continues with the following
entries rather than the failed one. -/
theorem iter_next_read_failure (e : Engine) (it : UserIterator)
    (key : List Nat) (pos : RecordPos) (er : KvError)
    (h1 : it.index_iter.next.2 = some (key, pos))
    (h2 : e.read_value_from_pos pos = .error er) :
    UserIterator.next e it = (⟨it.index_iter.next.1⟩, none) := by
  simp only [UserIterator.next, h1, h2]

set_option maxRecDepth 40000 in
/-- C6 amended witness: the sample engine, where the failed read yields
`None` while advancing the cursor past the failed entry. -/
theorem iter_next_read_failure_witness :
    UserIterator.next eIterSample (eIterSample.iter IteratorConfig.default) =
      (⟨(eIterSample.iter IteratorConfig.default).index_iter.next.1⟩, none) := by
  exact iter_next_read_failure _ _ [1] ⟨5, 0⟩ .InvalidKey (by decide) (by decide)

set_option maxRecDepth 100000 in
/-- C1.  The rollover position bug evaluated end to end: with
`storage_size = 20`, three successful `set` calls of nine-byte records
make the third trigger a rollover; its record is written at offset 0 of
generation 1, but the returned (and indexed) position is the stale
pre-rollover offset 18, so `get` of that key fails with ReadEOF instead
of returning the value. -/
theorem rollover_position_bug :
    (((Engine.set ⟨⟨20, false⟩, ⟨0, 0, []⟩, [], []⟩ [1] [10] noFail).1.set
        [2] [11] noFail).1.set [3] [12] noFail).2 = none ∧
    idxGet (((Engine.set ⟨⟨20, false⟩, ⟨0, 0, []⟩, [], []⟩ [1] [10] noFail).1.set
        [2] [11] noFail).1.set [3] [12] noFail).1.index [3] = some ⟨1, 18⟩ ∧
    (((Engine.set ⟨⟨20, false⟩, ⟨0, 0, []⟩, [], []⟩ [1] [10] noFail).1.set
        [2] [11] noFail).1.set [3] [12] noFail).1.active_storage.file =
      (Record.new_set [3] [12]).encode ∧
    Engine.get (((Engine.set ⟨⟨20, false⟩, ⟨0, 0, []⟩, [], []⟩ [1] [10] noFail).1.set
        [2] [11] noFail).1.set [3] [12] noFail).1 [3] = .error .ReadEOF ∧
    readRecord (Record.new_set [3] [12]).encode 0 = .ok (Record.new_set [3] [12]) := by
  decide

/-- Spec invariants 1 and 3, as far as the atomicity claim needs them:
every indexed position is at or below the active generation, and a
position inside the active segment points at a complete encoded
well-formed record. -/
def EngineWF (e : Engine) : Prop :=
  ∀ k pos, idxGet e.index k = some pos →
    pos.gen ≤ e.active_storage.gen ∧
    (pos.gen = e.active_storage.gen →
      ∃ r rest, RecordOk r ∧
        e.active_storage.file.drop pos.offset = r.encode ++ rest)

theorem append_record_index_unchanged (e : Engine) (r : Record) (io : IOFails) :
    (e.append_record r io).1.index = e.index := by
  unfold Engine.append_record appendWriteTail
  by_cases h1 : e.active_storage.offset + r.encode.length > e.config.storage_size <;>
    by_cases h2 : io.sync_roll <;> by_cases h5 : io.new_active <;>
      by_cases h6 : io.reopen_old <;> by_cases h3 : io.write <;>
        by_cases h4 : e.config.sync_write && io.sync_write <;>
          simp [h1, h2, h3, h4, h5, h6]

/-- A context found below an offset survives appending to the file. -/
theorem drop_append_context {file enc rest ext : List Nat} {off : Nat}
    (h : file.drop off = enc ++ rest) (henc : enc ≠ []) :
    (file ++ ext).drop off = enc ++ (rest ++ ext) := by
  have hoff : off ≤ file.length := by
    by_contra hc
    push_neg at hc
    rw [List.drop_eq_nil_of_le (by omega)] at h
    exact henc (by cases enc with
      | nil => rfl
      | cons a l => simp at h)
  rw [List.drop_append_of_le_length hoff, h, List.append_assoc]

theorem encode_ne_nil (r : Record) (h : RecordOk r) : r.encode ≠ [] := by
  intro hc
  have := length_encode_ge_eight r h.1
  rw [hc] at this
  simp at this

/-- Reads through indexed positions are unchanged by an `append_record`
that does not fail at the rollover reopen: appended bytes land beyond
every complete indexed record, and a completed rollover moves the active
file intact into the frozen map.  (A failed reopen orphans the old
active segment, so the hypothesis on `reopen_old` cannot be dropped.) -/
theorem append_read_stable (e : Engine) (r0 : Record) (io : IOFails)
    (hre : io.reopen_old = false)
    (hwf : EngineWF e) (k : List Nat) (pos : RecordPos)
    (hpos : idxGet e.index k = some pos) :
    (e.append_record r0 io).1.read_value_from_pos pos =
      e.read_value_from_pos pos := by
  obtain ⟨hle, hct⟩ := hwf k pos hpos
  by_cases hro : e.active_storage.offset + r0.encode.length > e.config.storage_size
  · simp only [Engine.append_record, if_pos hro]
    by_cases hs : io.sync_roll
    · simp [hs]
    · by_cases hn : io.new_active
      · simp [hs, hn]
      · simp only [hs, hn, hre, Bool.false_eq_true, if_false, appendWriteTail]
        by_cases hw : io.write
        · simp only [hw, if_pos]
          have hgen : ¬(e.active_storage.gen + 1 = pos.gen) := by omega
          by_cases hpg : pos.gen = e.active_storage.gen
          · simp [Engine.read_value_from_pos, hgen, olderLookup, hpg]
          · have hne : ¬(e.active_storage.gen = pos.gen) := fun hc => hpg hc.symm
            simp [Engine.read_value_from_pos, hgen, olderLookup, hne,
              fun hc : e.active_storage.gen = pos.gen => hpg hc.symm]
        · simp only [hw, Bool.false_eq_true, if_false]
          split
          · rename_i hcond
            simp only []
            have hgen : ¬(e.active_storage.gen + 1 = pos.gen) := by omega
            by_cases hpg : pos.gen = e.active_storage.gen
            · simp [Engine.read_value_from_pos, Storage.write, hgen, olderLookup, hpg]
            · have hne : ¬(e.active_storage.gen = pos.gen) := fun hc => hpg hc.symm
              simp [Engine.read_value_from_pos, Storage.write, hgen, olderLookup, hne,
                fun hc : e.active_storage.gen = pos.gen => hpg hc.symm]
          · rename_i hcond
            simp only []
            have hgen : ¬(e.active_storage.gen + 1 = pos.gen) := by omega
            by_cases hpg : pos.gen = e.active_storage.gen
            · simp [Engine.read_value_from_pos, Storage.write, hgen, olderLookup, hpg]
            · have hne : ¬(e.active_storage.gen = pos.gen) := fun hc => hpg hc.symm
              simp [Engine.read_value_from_pos, Storage.write, hgen, olderLookup, hne,
                fun hc : e.active_storage.gen = pos.gen => hpg hc.symm]
  · simp only [Engine.append_record, if_neg hro, appendWriteTail]
    by_cases hw : io.write
    · simp [hw]
    · simp only [hw, Bool.false_eq_true, if_false]
      have hread : Engine.read_value_from_pos
          { e with active_storage := e.active_storage.write r0.encode } pos =
          e.read_value_from_pos pos := by
        by_cases hpg : e.active_storage.gen = pos.gen
        · obtain ⟨rr, rest, hok, hdrop⟩ := hct hpg.symm
          have h1 : readRecord e.active_storage.file pos.offset = .ok rr :=
            readRecord_encode hok hdrop
          have h2 : readRecord (e.active_storage.file ++ r0.encode) pos.offset =
              .ok rr :=
            readRecord_encode hok
              (drop_append_context hdrop (encode_ne_nil rr hok))
          simp [Engine.read_value_from_pos, Storage.write, hpg, h1, h2]
        · simp [Engine.read_value_from_pos, Storage.write, hpg]
      split
      · exact hread
      · exact hread

set_option maxRecDepth 100000 in
/-- C10 counterexample: on a well-formed engine holding one readable
key, a `set` that triggers a rollover and whose reopen of the
just-frozen old segment (the second `Storage::new` of the rollover)
fails returns an I/O error with the index unchanged, yet `get` of the
pre-existing key flips from its value to `InvalidKey`: the active slot
was already replaced, so the old segment is in neither the active slot
nor the frozen map. -/
theorem rollover_reopen_failure_orphans_segment :
    EngineWF ⟨⟨10, false⟩, ⟨0, 9, (Record.new_set [1] [2]).encode⟩, [],
      [([1], ⟨0, 0⟩)]⟩ ∧
    Engine.get ⟨⟨10, false⟩, ⟨0, 9, (Record.new_set [1] [2]).encode⟩, [],
      [([1], ⟨0, 0⟩)]⟩ [1] = .ok [2] ∧
    (Engine.set ⟨⟨10, false⟩, ⟨0, 9, (Record.new_set [1] [2]).encode⟩, [],
      [([1], ⟨0, 0⟩)]⟩ [3] [4] ⟨false, false, false, false, true⟩).2 = some .Io ∧
    (Engine.set ⟨⟨10, false⟩, ⟨0, 9, (Record.new_set [1] [2]).encode⟩, [],
      [([1], ⟨0, 0⟩)]⟩ [3] [4] ⟨false, false, false, false, true⟩).1.index =
      [([1], ⟨0, 0⟩)] ∧
    (Engine.set ⟨⟨10, false⟩, ⟨0, 9, (Record.new_set [1] [2]).encode⟩, [],
      [([1], ⟨0, 0⟩)]⟩ [3] [4] ⟨false, false, false, false, true⟩).1.get [1] =
      .error .InvalidKey := by
  refine ⟨?_, by decide, by decide, by decide, by decide⟩
  intro k pos h
  simp only [idxGet] at h
  split at h
  · rename_i hk
    cases h
    refine ⟨by decide, fun hg => ?_⟩
    exact ⟨Record.new_set [1] [2], [],
      ⟨by decide, by decide, by decide, by decide⟩, by simp⟩
  · simp at h

/-- C10 amended.  When `set` or `delete` fails, the in-memory index is
always unchanged; if the failure is at any of the four fallible I/O
points other than the reopen of the just-rolled-over segment, a
subsequent `get` of the key also returns exactly what it returned
before the failed call; but when that reopen fails after the active
slot was already replaced, the old active segment is left in neither
the active slot nor the frozen map, so `get` of any key indexed in the
old active generation flips from its value to `InvalidKey` even though
the index is unchanged. -/
theorem mutation_error_atomicity (e : Engine) (k v : List Nat) (io : IOFails)
    (hwf : EngineWF e) :
    (∀ er, (e.set k v io).2 = some er → (e.set k v io).1.index = e.index) ∧
    (∀ er, (e.delete k io).2 = some er → (e.delete k io).1.index = e.index) ∧
    (io.reopen_old = false →
      (∀ er, (e.set k v io).2 = some er → (e.set k v io).1.get k = e.get k) ∧
      (∀ er, (e.delete k io).2 = some er → (e.delete k io).1.get k = e.get k)) ∧
    (io.sync_roll = false → io.new_active = false → io.reopen_old = true →
      k ≠ [] →
      e.active_storage.offset + (Record.new_set k v).encode.length >
        e.config.storage_size →
      olderLookup e.older_storages e.active_storage.gen = none →
      ((e.set k v io).2 = some .Io ∧
        ∀ k1 pos, idxGet e.index k1 = some pos →
          pos.gen = e.active_storage.gen → k1 ≠ [] →
          ((e.set k v io).1.get k1 = .error .InvalidKey ∧
            ∃ w, e.get k1 = .ok w))) := by
  have hget : ∀ e1 : Engine, e1.index = e.index →
      (∀ pos, idxGet e.index k = some pos →
        e1.read_value_from_pos pos = e.read_value_from_pos pos) →
      e1.get k = e.get k := by
    intro e1 hidx hread
    unfold Engine.get
    rw [hidx]
    by_cases hke : k.isEmpty
    · simp [hke]
    · simp only [hke, Bool.false_eq_true, if_false]
      cases hg : idxGet e.index k with
      | none => rfl
      | some pos => exact hread pos hg
  have hsetform : ∀ er, ¬k.isEmpty → (e.set k v io).2 = some er →
      e.set k v io = ((e.append_record (Record.new_set k v) io).1, some er) := by
    intro er hke her
    unfold Engine.set at her ⊢
    simp only [hke, Bool.false_eq_true, if_false] at her ⊢
    rcases happ : (e.append_record (Record.new_set k v) io) with ⟨e1, res⟩
    cases res with
    | error e2 =>
      rw [happ] at her
      simp at her
      simp [happ, her]
    | ok pos =>
      rw [happ] at her
      simp at her
  have hdelform : ∀ er pos0, ¬k.isEmpty → idxGet e.index k = some pos0 →
      (e.delete k io).2 = some er →
      e.delete k io = ((e.append_record (Record.new_remove k) io).1, some er) := by
    intro er pos0 hke hg her
    unfold Engine.delete at her ⊢
    simp only [hke, Bool.false_eq_true, if_false, hg] at her ⊢
    rcases happ : (e.append_record (Record.new_remove k) io) with ⟨e1, res⟩
    cases res with
    | error e2 =>
      rw [happ] at her
      simp at her
      simp [happ, her]
    | ok pos =>
      rw [happ] at her
      simp at her
  refine ⟨?_, ?_, ?_, ?_⟩
  · intro er her
    by_cases hke : k.isEmpty
    · simp [Engine.set, hke]
    · rw [hsetform er hke her]
      exact append_record_index_unchanged e _ io
  · intro er her
    by_cases hke : k.isEmpty
    · simp [Engine.delete, hke]
    · cases hg : idxGet e.index k with
      | none =>
        have hd : e.delete k io = (e, some .InvalidKey) := by
          unfold Engine.delete
          simp [hke, hg]
        rw [hd]
      | some pos0 =>
        rw [hdelform er pos0 hke hg her]
        exact append_record_index_unchanged e _ io
  · intro hre
    constructor
    · intro er her
      by_cases hke : k.isEmpty
      · simp [Engine.set, hke]
      · rw [hsetform er hke her]
        exact hget _ (append_record_index_unchanged e _ io)
          (fun pos hp => append_read_stable e _ io hre hwf k pos hp)
    · intro er her
      by_cases hke : k.isEmpty
      · simp [Engine.delete, hke]
      · cases hg : idxGet e.index k with
        | none =>
          have hd : e.delete k io = (e, some .InvalidKey) := by
            unfold Engine.delete
            simp [hke, hg]
          rw [hd]
        | some pos0 =>
          rw [hdelform er pos0 hke hg her]
          exact hget _ (append_record_index_unchanged e _ io)
            (fun pos hp => append_read_stable e _ io hre hwf k pos hp)
  · intro hs hn hre hk hro hold
    have hke : ¬k.isEmpty := by simp [hk]
    have happ : e.append_record (Record.new_set k v) io =
        (⟨e.config, ⟨e.active_storage.gen + 1, 0, []⟩, e.older_storages, e.index⟩,
          .error .Io) := by
      unfold Engine.append_record
      simp [hro, hs, hn, hre]
    have hset2 : e.set k v io =
        (⟨e.config, ⟨e.active_storage.gen + 1, 0, []⟩, e.older_storages, e.index⟩,
          some .Io) := by
      unfold Engine.set
      simp [hke, happ]
    refine ⟨by rw [hset2], ?_⟩
    intro k1 pos hp hpg hk1
    have hk1e : ¬k1.isEmpty := by simp [hk1]
    constructor
    · rw [hset2]
      have hgen : ¬(e.active_storage.gen + 1 = e.active_storage.gen) := by omega
      simp [Engine.get, hk1e, hp, Engine.read_value_from_pos, hpg, hgen, hold]
    · obtain ⟨hle, hct⟩ := hwf k1 pos hp
      obtain ⟨r1, rest, hok, hdrop⟩ := hct hpg
      refine ⟨r1.value, ?_⟩
      have hr1 : readRecord e.active_storage.file pos.offset = .ok r1 :=
        readRecord_encode hok hdrop
      simp [Engine.get, hk1e, hp, Engine.read_value_from_pos, hpg, hr1, Except.map]

set_option maxRecDepth 100000 in
/-- C10 witness: on a fresh engine, a `set` whose append write fails
leaves the index empty and `get` unchanged; on an engine holding one
readable key, a `set` whose rollover reopen fails returns an I/O error
while `get` of the pre-existing key flips to `InvalidKey` from its
former value. -/
theorem mutation_error_atomicity_witness :
    ((Engine.set ⟨⟨100, false⟩, ⟨0, 0, []⟩, [], []⟩ [1] [2]
        ⟨false, true, false, false, false⟩).2 = some .Io ∧
      (Engine.set ⟨⟨100, false⟩, ⟨0, 0, []⟩, [], []⟩ [1] [2]
        ⟨false, true, false, false, false⟩).1.index = [] ∧
      (Engine.set ⟨⟨100, false⟩, ⟨0, 0, []⟩, [], []⟩ [1] [2]
        ⟨false, true, false, false, false⟩).1.get [1] =
        Engine.get ⟨⟨100, false⟩, ⟨0, 0, []⟩, [], []⟩ [1]) ∧
    ((Engine.set ⟨⟨10, false⟩, ⟨0, 9, (Record.new_set [1] [2]).encode⟩, [],
        [([1], ⟨0, 0⟩)]⟩ [3] [4] ⟨false, false, false, false, true⟩).2 =
        some .Io ∧
      (Engine.set ⟨⟨10, false⟩, ⟨0, 9, (Record.new_set [1] [2]).encode⟩, [],
        [([1], ⟨0, 0⟩)]⟩ [3] [4] ⟨false, false, false, false, true⟩).1.get [1] =
        .error .InvalidKey ∧
      ∃ w, Engine.get ⟨⟨10, false⟩, ⟨0, 9, (Record.new_set [1] [2]).encode⟩, [],
        [([1], ⟨0, 0⟩)]⟩ [1] = .ok w) := by
  have hwf0 : EngineWF ⟨⟨100, false⟩, ⟨0, 0, []⟩, [], []⟩ := by
    intro k pos h
    simp [idxGet] at h
  have hwf1 : EngineWF ⟨⟨10, false⟩, ⟨0, 9, (Record.new_set [1] [2]).encode⟩, [],
      [([1], ⟨0, 0⟩)]⟩ := by
    intro k pos h
    simp only [idxGet] at h
    split at h
    · rename_i hk
      cases h
      refine ⟨by decide, fun hg => ?_⟩
      exact ⟨Record.new_set [1] [2], [],
        ⟨by decide, by decide, by decide, by decide⟩, by simp⟩
    · simp at h
  have h1 := mutation_error_atomicity ⟨⟨100, false⟩, ⟨0, 0, []⟩, [], []⟩ [1] [2]
    ⟨false, true, false, false, false⟩ hwf0
  have h2 := (mutation_error_atomicity
    ⟨⟨10, false⟩, ⟨0, 9, (Record.new_set [1] [2]).encode⟩, [], [([1], ⟨0, 0⟩)]⟩
    [3] [4] ⟨false, false, false, false, true⟩ hwf1).2.2.2
    rfl rfl rfl (by decide) (by decide) rfl
  have h3 := h2.2 [1] ⟨0, 0⟩ (by decide) (by decide) (by decide)
  exact ⟨⟨by decide, h1.1 .Io (by decide), (h1.2.2.1 rfl).1 .Io (by decide)⟩,
    h2.1, h3.1, h3.2⟩

/-! ## Recovery lemmas for the replay claim. -/

theorem headerBuf_encoded_len_eq (r : Record) :
    (ReadRecordHeaderBuf.mk r.record_type r.key.length r.value.length).encoded_len =
      r.encode.length := by
  rw [length_encode]
  simp [ReadRecordHeaderBuf.encoded_len, Record.encoded_len]
  try omega

theorem scanSegment_step_normal {gen : Nat} {file : List Nat} {fuel off : Nat}
    {idx : Idx} {hdr : ReadRecordHeaderBuf}
    (hh : readRecordHeadBuf file off = .ok hdr) (ht : hdr.record_type = .Normal) :
    scanSegment gen file (fuel + 1) off idx =
      scanSegment gen file fuel (off + hdr.encoded_len)
        (idxPut idx (readKeyFromHeader file off hdr) ⟨gen, off⟩) := by
  rcases hdr with ⟨t, ks, vs⟩
  simp only [] at ht
  subst ht
  simp [scanSegment, hh]

theorem scanSegment_step_remove {gen : Nat} {file : List Nat} {fuel off : Nat}
    {idx : Idx} {hdr : ReadRecordHeaderBuf}
    (hh : readRecordHeadBuf file off = .ok hdr) (ht : hdr.record_type = .Remove) :
    scanSegment gen file (fuel + 1) off idx =
      scanSegment gen file fuel (off + hdr.encoded_len)
        (idxDelete idx (readKeyFromHeader file off hdr)) := by
  rcases hdr with ⟨t, ks, vs⟩
  simp only [] at ht
  subst ht
  simp [scanSegment, hh]

theorem scanSegment_stop {gen : Nat} {file : List Nat} {fuel off : Nat} {idx : Idx}
    (hh : readRecordHeadBuf file off = .error .ReadEOF) :
    scanSegment gen file (fuel + 1) off idx = .ok (idx, off) := by
  simp [scanSegment, hh]

theorem mem_insertByGen {s x : Storage} {l : List Storage}
    (h : x ∈ insertByGen s l) : x = s ∨ x ∈ l := by
  induction l with
  | nil => simp [insertByGen] at h; exact Or.inl h
  | cons t rest ih =>
    simp only [insertByGen] at h
    split at h
    · rcases List.mem_cons.mp h with rfl | h2
      · exact Or.inr (by simp)
      · rcases ih h2 with h3 | h3
        · exact Or.inl h3
        · exact Or.inr (by simp [h3])
    · rcases List.mem_cons.mp h with rfl | h2
      · exact Or.inl rfl
      · exact Or.inr h2

theorem insertByGen_pairwise {s : Storage} {l : List Storage}
    (h : List.Pairwise (fun a b => a.gen ≤ b.gen) l) :
    List.Pairwise (fun a b => a.gen ≤ b.gen) (insertByGen s l) := by
  induction l with
  | nil => simp [insertByGen]
  | cons t rest ih =>
    rw [List.pairwise_cons] at h
    simp only [insertByGen]
    split
    · rename_i hlt
      rw [List.pairwise_cons]
      constructor
      · intro x hx
        rcases mem_insertByGen hx with rfl | h2
        · omega
        · exact h.1 x h2
      · exact ih h.2
    · rename_i hge
      rw [List.pairwise_cons]
      constructor
      · intro x hx
        rcases List.mem_cons.mp hx with rfl | h2
        · omega
        · have := h.1 x h2
          omega
      · exact List.pairwise_cons.mpr h

theorem sortByGen_pairwise (l : List Storage) :
    List.Pairwise (fun a b => a.gen ≤ b.gen) (sortByGen l) := by
  induction l with
  | nil => simp [sortByGen]
  | cons s rest ih => exact insertByGen_pairwise ih

theorem is_storage_file_gen_zero :
    is_storage_file true (storage_name_from_gen 0) = .ok 0 := by
  decide

/-- C2.  Recovery replay: the scan applies `put` on a Normal record and
`delete` on a Remove record and stops at the zero-type sentinel; segments
are replayed in ascending generation order; and after `set(k, v)`,
`delete(k)` and a reopen of the same directory, `get(k)` is InvalidKey
(not found) even though both records remain in the log. -/
theorem recovery_replay :
    (∀ (gen : Nat) (file : List Nat) (fuel off : Nat) (idx : Idx)
        (hdr : ReadRecordHeaderBuf), readRecordHeadBuf file off = .ok hdr →
      (hdr.record_type = .Normal →
        scanSegment gen file (fuel + 1) off idx =
          scanSegment gen file fuel (off + hdr.encoded_len)
            (idxPut idx (readKeyFromHeader file off hdr) ⟨gen, off⟩)) ∧
      (hdr.record_type = .Remove →
        scanSegment gen file (fuel + 1) off idx =
          scanSegment gen file fuel (off + hdr.encoded_len)
            (idxDelete idx (readKeyFromHeader file off hdr)))) ∧
    (∀ (gen : Nat) (file : List Nat) (fuel off : Nat) (idx : Idx),
      readRecordHeadBuf file off = .error .ReadEOF →
      scanSegment gen file (fuel + 1) off idx = .ok (idx, off)) ∧
    (∀ dir : List DirEntry,
      List.Pairwise (fun a b => a.gen ≤ b.gen) (load_storages_sorted dir)) ∧
    (∀ (k v : List Nat) (sz : Nat), k ≠ [] → k.length < 2 ^ 35 →
      v.length < 2 ^ 35 →
      (Record.new_set k v).encode.length + (Record.new_remove k).encode.length ≤ sz →
      ∃ e2 : Engine,
        Engine.new ⟨sz, false⟩
          (((Engine.set ⟨⟨sz, false⟩, ⟨0, 0, []⟩, [], []⟩ k v noFail).1.delete
            k noFail).1.diskEntries) = .ok e2 ∧
        e2.get k = .error .InvalidKey ∧
        ((Engine.set ⟨⟨sz, false⟩, ⟨0, 0, []⟩, [], []⟩ k v noFail).1.delete
            k noFail).1.active_storage.file =
          (Record.new_set k v).encode ++ (Record.new_remove k).encode) := by
  refine ⟨?_, ?_, ?_, ?_⟩
  · intro gen file fuel off idx hdr hh
    exact ⟨fun ht => scanSegment_step_normal hh ht,
      fun ht => scanSegment_step_remove hh ht⟩
  · intro gen file fuel off idx hh
    exact scanSegment_stop hh
  · intro dir
    exact sortByGen_pairwise _
  · intro k v sz hk hk35 hv35 hsz
    have hok1 : RecordOk (Record.new_set k v) := ⟨hk, hk35, hv35, by simp [Record.new_set]⟩
    have hok2 : RecordOk (Record.new_remove k) := by
      refine ⟨hk, hk35, ?_, by simp [Record.new_remove]⟩
      simp [Record.new_remove]
    have hL1 := length_encode_ge_eight (Record.new_set k v) hk
    have hL2 := length_encode_ge_eight (Record.new_remove k) hk
    have he1 : (Engine.set ⟨⟨sz, false⟩, ⟨0, 0, []⟩, [], []⟩ k v noFail).1 =
        ⟨⟨sz, false⟩, ⟨0, (Record.new_set k v).encode.length, (Record.new_set k v).encode⟩,
          [], [(k, ⟨0, 0⟩)]⟩ := by
      rw [set_no_rollover _ k v hk (by simp; omega)]
      simp [Storage.write, idxPut]
    have he2 : ((Engine.set ⟨⟨sz, false⟩, ⟨0, 0, []⟩, [], []⟩ k v noFail).1.delete
        k noFail).1 =
        ⟨⟨sz, false⟩,
          ⟨0, (Record.new_set k v).encode.length + (Record.new_remove k).encode.length,
            (Record.new_set k v).encode ++ (Record.new_remove k).encode⟩,
          [], []⟩ := by
      rw [he1]
      rw [delete_no_rollover _ k hk ⟨0, 0⟩ (by simp [idxGet]) (by simp; omega)]
      simp [Storage.write, idxDelete]
    rw [he2]
    have hfile : ((Record.new_set k v).encode ++ (Record.new_remove k).encode).length =
        (Record.new_set k v).encode.length + (Record.new_remove k).encode.length := by
      simp
    have hctx1 : ((Record.new_set k v).encode ++ (Record.new_remove k).encode).drop 0 =
        (Record.new_set k v).encode ++ (Record.new_remove k).encode := by simp
    have hh1 : readRecordHeadBuf
        ((Record.new_set k v).encode ++ (Record.new_remove k).encode) 0 =
        .ok ⟨.Normal, k.length, v.length⟩ := by
      have := readRecordHeadBuf_encode hok1 hctx1
      simpa [Record.new_set] using this
    have hkey1 : readKeyFromHeader
        ((Record.new_set k v).encode ++ (Record.new_remove k).encode) 0
        ⟨.Normal, k.length, v.length⟩ = k := by
      have := readKeyFromHeader_encode hok1 hctx1
      simpa [Record.new_set] using this
    have hctx2 : ((Record.new_set k v).encode ++ (Record.new_remove k).encode).drop
        (Record.new_set k v).encode.length = (Record.new_remove k).encode ++ [] := by
      rw [List.drop_left, List.append_nil]
    have hh2 : readRecordHeadBuf
        ((Record.new_set k v).encode ++ (Record.new_remove k).encode)
        (Record.new_set k v).encode.length = .ok ⟨.Remove, k.length, 0⟩ := by
      have := readRecordHeadBuf_encode hok2 hctx2
      simpa [Record.new_remove] using this
    have hkey2 : readKeyFromHeader
        ((Record.new_set k v).encode ++ (Record.new_remove k).encode)
        (Record.new_set k v).encode.length ⟨.Remove, k.length, 0⟩ = k := by
      have := readKeyFromHeader_encode hok2 hctx2
      simpa [Record.new_remove] using this
    have hlen1 : (ReadRecordHeaderBuf.mk RecordType.Normal k.length v.length).encoded_len =
        (Record.new_set k v).encode.length := by
      have := headerBuf_encoded_len_eq (Record.new_set k v)
      simpa [Record.new_set] using this
    have hlen2 : (ReadRecordHeaderBuf.mk RecordType.Remove k.length 0).encoded_len =
        (Record.new_remove k).encode.length := by
      have := headerBuf_encoded_len_eq (Record.new_remove k)
      simpa [Record.new_remove] using this
    have hhe : readRecordHeadBuf
        ((Record.new_set k v).encode ++ (Record.new_remove k).encode)
        ((Record.new_set k v).encode.length + (Record.new_remove k).encode.length) =
        .error .ReadEOF := by
      apply readRecordHeadBuf_eof
      omega
    obtain ⟨m, hm⟩ : ∃ m, (Record.new_set k v).encode.length +
        (Record.new_remove k).encode.length = m + 2 :=
      ⟨(Record.new_set k v).encode.length + (Record.new_remove k).encode.length - 2,
        by omega⟩
    have hscan : scanSegment 0
        ((Record.new_set k v).encode ++ (Record.new_remove k).encode)
        (((Record.new_set k v).encode ++ (Record.new_remove k).encode).length + 1)
        0 [] = .ok ([], (Record.new_set k v).encode.length +
          (Record.new_remove k).encode.length) := by
      rw [hfile, hm]
      have e1 : m + 2 + 1 = (m + 2) + 1 := rfl
      rw [e1, scanSegment_step_normal hh1 rfl]
      simp only [hlen1, Nat.zero_add]
      rw [hkey1]
      have e2 : m + 2 = (m + 1) + 1 := rfl
      rw [e2, scanSegment_step_remove hh2 rfl]
      simp only [hlen2, hkey2]
      rw [← hm]
      rw [scanSegment_stop hhe]
      simp [idxPut, idxDelete]
    refine ⟨⟨⟨sz, false⟩,
      ⟨0, (Record.new_set k v).encode.length + (Record.new_remove k).encode.length,
        (Record.new_set k v).encode ++ (Record.new_remove k).encode⟩, [], []⟩,
      ?_, ?_, rfl⟩
    · simp only [Engine.diskEntries, List.map_nil, Engine.new, load_storages_sorted,
        List.filterMap, is_storage_file_gen_zero]
      simp only [sortByGen, insertByGen, buildIndexFromStorage, hscan]
      simp [Storage.set_offset]
    · simp [Engine.get, idxGet, hk]

/-- C2 witness: the scenario at key [107], value [118], size 100, plus a
concrete instance of each scan-step equation. -/
theorem recovery_replay_witness :
    (∃ e2 : Engine,
      Engine.new ⟨100, false⟩
        (((Engine.set ⟨⟨100, false⟩, ⟨0, 0, []⟩, [], []⟩ [107] [118] noFail).1.delete
          [107] noFail).1.diskEntries) = .ok e2 ∧
      e2.get [107] = .error .InvalidKey ∧
      ((Engine.set ⟨⟨100, false⟩, ⟨0, 0, []⟩, [], []⟩ [107] [118] noFail).1.delete
          [107] noFail).1.active_storage.file =
        (Record.new_set [107] [118]).encode ++ (Record.new_remove [107]).encode) ∧
    scanSegment 0 [3] 2 0 [] = .ok ([], 0) := by
  constructor
  · exact recovery_replay.2.2.2 [107] [118] 100 (by decide) (by decide) (by decide)
      (by decide)
  · exact recovery_replay.2.1 0 [3] 1 0 [] (by decide)

/-! ## Lemmas about segment file-name parsing. -/

theorem digit_ne_dot {c : Char} (h : charIsDigit c = true) : c ≠ '.' := by
  intro hc
  subst hc
  exact absurd h (by decide)

theorem digit_ne_plus {c : Char} (h : charIsDigit c = true) : c ≠ '+' := by
  intro hc
  subst hc
  exact absurd h (by decide)

theorem foldl_digits_lt (ds : List Char) :
    ∀ acc : Nat, (∀ c ∈ ds, charIsDigit c = true) →
      ds.foldl (fun acc c => acc * 10 + (c.toNat - 48)) acc <
        (acc + 1) * 10 ^ ds.length := by
  induction ds with
  | nil =>
    intro acc _
    simp
  | cons c rest ih =>
    intro acc h
    have hc : charIsDigit c = true := h c (by simp)
    have hd : c.toNat - 48 ≤ 9 := by
      simp [charIsDigit] at hc
      omega
    simp only [List.foldl_cons, List.length_cons]
    calc List.foldl (fun acc c => acc * 10 + (c.toNat - 48)) (acc * 10 + (c.toNat - 48)) rest
        < (acc * 10 + (c.toNat - 48) + 1) * 10 ^ rest.length :=
          ih _ (fun x hx => h x (by simp [hx]))
      _ ≤ ((acc + 1) * 10) * 10 ^ rest.length := by
          apply Nat.mul_le_mul_right
          omega
      _ = (acc + 1) * 10 ^ (rest.length + 1) := by ring

theorem digitsVal_lt_u32 {ds : List Char} (h9 : ds.length = 9)
    (h : ∀ c ∈ ds, charIsDigit c = true) : digitsVal ds < 2 ^ 32 := by
  have := foldl_digits_lt ds 0 h
  rw [h9] at this
  unfold digitsVal
  calc ds.foldl (fun acc c => acc * 10 + (c.toNat - 48)) 0 < (0 + 1) * 10 ^ 9 := this
    _ ≤ 2 ^ 32 := by norm_num

theorem stripPlus_ne_plus {c : Char} {rest : List Char} (h : c ≠ '+') :
    stripPlus (c :: rest) = c :: rest := by
  rw [stripPlus.eq_def]
  split
  · rename_i r heq
    rw [List.cons.injEq] at heq
    exact absurd heq.1 h
  · rfl

theorem parseU32_digits {ds : List Char} (hne : ds ≠ [])
    (h : ∀ c ∈ ds, charIsDigit c = true) (hlt : digitsVal ds < 2 ^ 32) :
    parseU32 ds = some (digitsVal ds) := by
  cases ds with
  | nil => exact absurd rfl hne
  | cons c rest =>
    have hc : charIsDigit c = true := h c (by simp)
    have hplus := digit_ne_plus hc
    unfold parseU32
    rw [stripPlus_ne_plus hplus]
    have hall : (c :: rest).all charIsDigit = true := List.all_eq_true.mpr h
    simp only [List.isEmpty_cons, Bool.false_eq_true, if_false, hall, if_true]
    change (if digitsVal (c :: rest) < 2 ^ 32 then some (digitsVal (c :: rest))
      else none) = some (digitsVal (c :: rest))
    rw [if_pos hlt]

theorem fileExtension_digits_storage {ds : List Char} (hne : ds ≠ [])
    (h : ∀ c ∈ ds, charIsDigit c = true) :
    fileExtension (ds ++ ".storage".toList) = some ("storage".toList) := by
  have hrev : (ds ++ ".storage".toList).reverse =
      'e' :: 'g' :: 'a' :: 'r' :: 'o' :: 't' :: 's' :: '.' :: ds.reverse := by
    rw [List.reverse_append]
    rfl
  unfold fileExtension
  rw [hrev]
  have hcont : ('e' :: 'g' :: 'a' :: 'r' :: 'o' :: 't' :: 's' :: '.' ::
      ds.reverse).contains '.' = true := by
    simp [List.contains_cons]
  rw [if_pos hcont]
  have htake : ('e' :: 'g' :: 'a' :: 'r' :: 'o' :: 't' :: 's' :: '.' ::
      ds.reverse).takeWhile (fun c => c ≠ '.') = ['e', 'g', 'a', 'r', 'o', 't', 's'] := by
    rw [List.takeWhile_cons_of_pos (by decide), List.takeWhile_cons_of_pos (by decide),
      List.takeWhile_cons_of_pos (by decide), List.takeWhile_cons_of_pos (by decide),
      List.takeWhile_cons_of_pos (by decide), List.takeWhile_cons_of_pos (by decide),
      List.takeWhile_cons_of_pos (by decide), List.takeWhile_cons_of_neg (by decide)]
  have hdropw : ('e' :: 'g' :: 'a' :: 'r' :: 'o' :: 't' :: 's' :: '.' ::
      ds.reverse).dropWhile (fun c => c ≠ '.') = '.' :: ds.reverse := by
    rw [List.dropWhile_cons_of_pos (by decide), List.dropWhile_cons_of_pos (by decide),
      List.dropWhile_cons_of_pos (by decide), List.dropWhile_cons_of_pos (by decide),
      List.dropWhile_cons_of_pos (by decide), List.dropWhile_cons_of_pos (by decide),
      List.dropWhile_cons_of_pos (by decide), List.dropWhile_cons_of_neg (by decide)]
  rw [htake, hdropw]
  simp only [List.drop_one, List.tail_cons, List.reverse_reverse]
  have hni : ds.isEmpty = false := by
    cases ds with
    | nil => exact absurd rfl hne
    | cons c r => rfl
  rw [hni]
  rfl

theorem trimEnd_digits {ds : List Char} (h9 : ds.length = 9)
    (h : ∀ c ∈ ds, charIsDigit c = true) :
    trimEndDotStorage (ds ++ ".storage".toList) = ds := by
  have hlen : (ds ++ ".storage".toList).length = 17 := by
    simp [h9]
    try rfl
  have hsuf : (".storage".toList).isSuffixOf (ds ++ ".storage".toList) = true := by
    rw [List.isSuffixOf_iff_suffix]
    exact List.suffix_append ds _
  have hnosuf : (".storage".toList).isSuffixOf ds = false := by
    by_contra hc
    have : (".storage".toList).isSuffixOf ds = true := by
      cases hb : (".storage".toList).isSuffixOf ds
      · exact absurd hb hc
      · rfl
    rw [List.isSuffixOf_iff_suffix] at this
    have hdot : '.' ∈ ds := this.subset (by decide)
    exact digit_ne_dot (h '.' hdot) rfl
  unfold trimEndDotStorage
  rw [hlen]
  show trimEndGo (16 + 1) (ds ++ ".storage".toList) = ds
  unfold trimEndGo
  rw [if_pos hsuf, hlen]
  have htake : (ds ++ ".storage".toList).take (17 - 8) = ds := by
    apply List.take_left'
    omega
  rw [htake]
  show trimEndGo (15 + 1) ds = ds
  unfold trimEndGo
  rw [hnosuf]
  simp

/-- C8 counterexample: `5.storage` is not nine digits followed by
`.storage` (such names have length 17), yet `is_storage_file` accepts it
with generation 5 instead of rejecting it with InvalidPath. -/
theorem storage_name_parse_not_strict :
    is_storage_file true ("5.storage".toList) = .ok 5 ∧
    ("5.storage".toList).length ≠ 17 := by
  decide

/-- C8 amended.  Parsing accepts exactly the file names whose extension
is `storage` and whose remainder, after stripping every trailing
`.storage`, parses as a `u32` (so in particular every name of nine
decimal digits followed by `.storage`, yielding the digits' value), and
rejects the rest with InvalidPath; at engine open a directory entry that
fails to parse is skipped silently. -/
theorem storage_name_parsing :
    (∀ ds : List Char, ds.length = 9 → (∀ c ∈ ds, charIsDigit c = true) →
      is_storage_file true (ds ++ ".storage".toList) = .ok (digitsVal ds)) ∧
    (∀ (isFile : Bool) (name : List Char) (g : Nat),
      is_storage_file isFile name = .ok g ↔
        (isFile = true ∧ fileExtension name = some ("storage".toList) ∧
          parseU32 (trimEndDotStorage name) = some g)) ∧
    (∀ (d : DirEntry) (dir : List DirEntry) (er : KvError),
      is_storage_file d.isFile d.name = .error er →
      load_storages_sorted (d :: dir) = load_storages_sorted dir) := by
  refine ⟨?_, ?_, ?_⟩
  · intro ds h9 h
    have hne : ds ≠ [] := by
      intro hc
      rw [hc] at h9
      simp at h9
    unfold is_storage_file
    rw [fileExtension_digits_storage hne h,
      trimEnd_digits h9 h, parseU32_digits hne h (digitsVal_lt_u32 h9 h)]
    simp
  · intro isFile name g
    unfold is_storage_file
    by_cases h1 : isFile
    · by_cases h2 : fileExtension name = some ("storage".toList)
      · simp only [h1, h2]
        cases hp : parseU32 (trimEndDotStorage name) with
        | none => simp [hp]
        | some g2 => simp [hp]
      · rw [show ("storage".toList : List Char) = ['s', 't', 'o', 'r', 'a', 'g', 'e']
          from rfl] at h2
        simp [h1, h2]
    · simp [h1]
  · intro d dir er h
    unfold load_storages_sorted
    simp [List.filterMap_cons, h]

/-- C8 amended witness: the canonical generation-12 name is accepted with
value 12, and a junk entry is skipped by the loader. -/
theorem storage_name_parsing_witness :
    is_storage_file true
      (['0', '0', '0', '0', '0', '0', '0', '1', '2'] ++ ".storage".toList) =
      .ok (digitsVal ['0', '0', '0', '0', '0', '0', '0', '1', '2']) ∧
    load_storages_sorted [⟨"junk.bin".toList, true, [1, 2]⟩] =
      load_storages_sorted [] := by
  constructor
  · exact storage_name_parsing.1 ['0', '0', '0', '0', '0', '0', '0', '1', '2']
      (by decide) (by decide)
  · exact storage_name_parsing.2.2 ⟨"junk.bin".toList, true, [1, 2]⟩ []
      .InvalidPath (by decide)

/-! ## Iterator semantics (claim about order, prefix and seek). -/

/-- Drain an iterator: collect every item `next` yields, with fuel
bounding the number of calls (the snapshot length always suffices). -/
def iterCollect : BTreeIterator → Nat → List (List Nat × RecordPos)
  | _, 0 => []
  | it, fuel + 1 =>
    match it.next with
    | (_, none) => []
    | (it2, some kv) => kv :: iterCollect it2 fuel

theorem lexLt_trans : ∀ {a b c : List Nat},
    lexLt a b = true → lexLt b c = true → lexLt a c = true := by
  intro a
  induction a with
  | nil =>
    intro b c hab hbc
    cases b with
    | nil => exact absurd hab (by simp [lexLt])
    | cons y ys =>
      cases c with
      | nil => exact absurd hbc (by simp [lexLt])
      | cons z zs => simp [lexLt]
  | cons x xs ih =>
    intro b c hab hbc
    cases b with
    | nil => exact absurd hab (by simp [lexLt])
    | cons y ys =>
      cases c with
      | nil => exact absurd hbc (by simp [lexLt])
      | cons z zs =>
        simp only [lexLt] at hab hbc ⊢
        by_cases hxy : x < y
        · by_cases hyz : y < z
          · simp [show x < z by omega]
          · by_cases hyz2 : y = z
            · simp [show x < z by omega]
            · rw [if_neg hyz, if_neg hyz2] at hbc
              exact absurd hbc (by simp)
        · by_cases hxy2 : x = y
          · rw [if_neg hxy, if_pos hxy2] at hab
            by_cases hyz : y < z
            · simp [show x < z by omega]
            · by_cases hyz2 : y = z
              · rw [if_neg hyz, if_pos hyz2] at hbc
                have hxz : ¬x < z := by omega
                have hxz2 : x = z := by omega
                rw [if_neg hxz, if_pos hxz2]
                exact ih hab hbc
              · rw [if_neg hyz, if_neg hyz2] at hbc
                exact absurd hbc (by simp)
          · rw [if_neg hxy, if_neg hxy2] at hab
            exact absurd hab (by simp)

/-- The prefix filter of `next`. -/
def prefOk (pfx : List Nat) (it : List Nat × RecordPos) : Bool :=
  pfx.isEmpty || pfx.isPrefixOf it.1

/-- The scanning loop yields the first item from the cursor on that
passes the prefix filter, and on success the new cursor points just past
it, with the remaining filtered items being the tail of the previous
filtered items. -/
theorem btreeNextGo_spec (items : List (List Nat × RecordPos)) (pfx : List Nat) :
    ∀ fuel ci, items.length - ci ≤ fuel →
      ((btreeNextGo items pfx fuel ci).2 = (items.drop ci).find? (prefOk pfx)) ∧
      (∀ x, (btreeNextGo items pfx fuel ci).2 = some x →
        ci < (btreeNextGo items pfx fuel ci).1 ∧
        (items.drop (btreeNextGo items pfx fuel ci).1).filter (prefOk pfx) =
          ((items.drop ci).filter (prefOk pfx)).tail) := by
  intro fuel
  induction fuel with
  | zero =>
    intro ci hb
    have hd : items.drop ci = [] := List.drop_eq_nil_of_le (by omega)
    simp [btreeNextGo, hd]
  | succ f ih =>
    intro ci hb
    by_cases hci : ci < items.length
    · have hget : items[ci]? = some items[ci] := List.getElem?_eq_getElem hci
      have hdrop : items.drop ci = items[ci] :: items.drop (ci + 1) :=
        List.drop_eq_getElem_cons hci
      by_cases hp : prefOk pfx items[ci] = true
      · have hp2 : (pfx.isEmpty || pfx.isPrefixOf items[ci].1) = true := hp
        have hstep : btreeNextGo items pfx (f + 1) ci = (ci + 1, some items[ci]) := by
          simp only [btreeNextGo, List.get?_eq_getElem?, hget, hp2, if_pos]
        rw [hstep, hdrop]
        refine ⟨by rw [List.find?_cons_of_pos _ hp], ?_⟩
        intro x hx
        refine ⟨by omega, ?_⟩
        rw [List.filter_cons_of_pos hp]
        simp
      · have hp2 : ¬(pfx.isEmpty || pfx.isPrefixOf items[ci].1) = true := hp
        have hstep : btreeNextGo items pfx (f + 1) ci =
            btreeNextGo items pfx f (ci + 1) := by
          simp only [btreeNextGo, List.get?_eq_getElem?, hget]
          rw [if_neg hp2]
        have hrec := ih (ci + 1) (by omega)
        rw [hstep, hdrop]
        rw [List.find?_cons_of_neg _ hp, List.filter_cons_of_neg hp]
        refine ⟨hrec.1, ?_⟩
        intro x hx
        have h2 := hrec.2 x hx
        exact ⟨by omega, h2.2⟩
    · have hd : items.drop ci = [] := List.drop_eq_nil_of_le (by omega)
      have hget : items[ci]? = none := by
        rw [List.getElem?_eq_none_iff]
        omega
      have hstep : btreeNextGo items pfx (f + 1) ci = (ci, none) := by
        simp only [btreeNextGo, List.get?_eq_getElem?, hget]
      rw [hstep, hd]
      simp

/-- Head of the filtered list when `find?` succeeds. -/
theorem filter_eq_cons_of_find? {p : List Nat × RecordPos → Bool}
    {l : List (List Nat × RecordPos)} {x : List Nat × RecordPos}
    (h : l.find? p = some x) : l.filter p = x :: (l.filter p).tail := by
  induction l with
  | nil => simp at h
  | cons a rest ih =>
    by_cases hp : p a = true
    · rw [List.find?_cons_of_pos _ hp] at h
      injection h with h
      subst h
      rw [List.filter_cons_of_pos hp]
      simp
    · rw [List.find?_cons_of_neg _ hp] at h
      rw [List.filter_cons_of_neg hp]
      exact ih h

/-- Draining an iterator from any cursor yields exactly the filtered
remainder of the snapshot. -/
theorem iterCollect_spec (items : List (List Nat × RecordPos))
    (cfg : IteratorConfig) :
    ∀ fuel ci, items.length - ci ≤ fuel →
      iterCollect ⟨items, ci, cfg⟩ fuel = (items.drop ci).filter (prefOk cfg.pfx) := by
  intro fuel
  induction fuel with
  | zero =>
    intro ci hb
    have hd : items.drop ci = [] := List.drop_eq_nil_of_le (by omega)
    simp [iterCollect, hd]
  | succ f ih =>
    intro ci hb
    by_cases hci : ci < items.length
    · have hnext : BTreeIterator.next ⟨items, ci, cfg⟩ =
          (⟨items, (btreeNextGo items cfg.pfx (items.length - ci) ci).1, cfg⟩,
            (btreeNextGo items cfg.pfx (items.length - ci) ci).2) := by
        simp [BTreeIterator.next, show ¬(items.length ≤ ci) by omega]
      have hspec := btreeNextGo_spec items cfg.pfx (items.length - ci) ci (le_refl _)
      cases hres : (btreeNextGo items cfg.pfx (items.length - ci) ci).2 with
      | none =>
        have hfind : (items.drop ci).find? (prefOk cfg.pfx) = none := by
          rw [← hspec.1, hres]
        have hfilter : (items.drop ci).filter (prefOk cfg.pfx) = [] := by
          rw [List.filter_eq_nil_iff]
          intro x hx
          have := List.find?_eq_none.mp hfind x hx
          simpa using this
        rw [hfilter]
        simp only [iterCollect]
        rw [hnext, hres]
      | some x =>
        have h2 := hspec.2 x hres
        have hfind : (items.drop ci).find? (prefOk cfg.pfx) = some x := by
          rw [← hspec.1, hres]
        simp only [iterCollect]
        rw [hnext, hres]
        show x :: iterCollect
            ⟨items, (btreeNextGo items cfg.pfx (items.length - ci) ci).1, cfg⟩ f =
          (items.drop ci).filter (prefOk cfg.pfx)
        have hrec := ih (btreeNextGo items cfg.pfx (items.length - ci) ci).1
          (by omega)
        rw [hrec, h2.2]
        exact (filter_eq_cons_of_find? hfind).symm
    · have hd : items.drop ci = [] := List.drop_eq_nil_of_le (by omega)
      have hnext : BTreeIterator.next ⟨items, ci, cfg⟩ = (⟨items, ci, cfg⟩, none) := by
        simp [BTreeIterator.next, show items.length ≤ ci by omega]
      simp only [iterCollect]
      rw [hnext, hd]
      simp

theorem countP_eq_takeWhile_length {p : List Nat × RecordPos → Bool} :
    ∀ l : List (List Nat × RecordPos),
      List.Pairwise (fun a b => p b = true → p a = true) l →
      l.countP p = (l.takeWhile p).length := by
  intro l
  induction l with
  | nil => intro _; rfl
  | cons a rest ih =>
    intro h
    rw [List.pairwise_cons] at h
    by_cases hp : p a = true
    · rw [List.countP_cons_of_pos _ _ hp, List.takeWhile_cons_of_pos hp]
      simp [ih h.2]
    · have hz : rest.countP p = 0 := by
        rw [List.countP_eq_zero]
        intro x hx hpx
        exact hp (h.1 x hx hpx)
      rw [List.countP_cons_of_neg _ _ hp, List.takeWhile_cons_of_neg hp, hz]
      rfl

theorem drop_takeWhile_length (p : List Nat × RecordPos → Bool)
    (l : List (List Nat × RecordPos)) :
    l.drop (l.takeWhile p).length = l.dropWhile p := by
  induction l with
  | nil => rfl
  | cons a rest ih =>
    by_cases hp : p a = true
    · rw [List.takeWhile_cons_of_pos hp, List.dropWhile_cons_of_pos hp,
        List.length_cons, List.drop_succ_cons]
      exact ih
    · rw [List.takeWhile_cons_of_neg hp, List.dropWhile_cons_of_neg hp]
      rfl

theorem find?_not_eq_head?_dropWhile (p : List Nat × RecordPos → Bool) :
    ∀ l : List (List Nat × RecordPos),
      l.find? (fun x => !p x) = (l.dropWhile p).head? := by
  intro l
  induction l with
  | nil => rfl
  | cons a rest ih =>
    by_cases hp : p a = true
    · have hcond : ¬((fun x => !p x) a = true) := by simp [hp]
      rw [List.find?_cons_of_neg (p := fun x => !p x) _ hcond,
        List.dropWhile_cons_of_pos hp]
      exact ih
    · have hcond : (fun x => !p x) a = true := by simp [hp]
      rw [List.find?_cons_of_pos (p := fun x => !p x) _ hcond,
        List.dropWhile_cons_of_neg hp]
      rfl

/-- With an empty prefix, `next` yields exactly the item under the
cursor. -/
theorem next_snd_empty_pfx (items : List (List Nat × RecordPos)) (ci : Nat)
    (cfg : IteratorConfig) (hp : cfg.pfx = []) :
    (BTreeIterator.next ⟨items, ci, cfg⟩).2 = (items.drop ci).head? := by
  have hfind : ∀ l : List (List Nat × RecordPos),
      l.find? (prefOk cfg.pfx) = l.head? := by
    intro l
    cases l with
    | nil => rfl
    | cons a rest =>
      rw [List.find?_cons_of_pos _ (by simp [prefOk, hp])]
      rfl
  by_cases h : items.length ≤ ci
  · rw [List.drop_eq_nil_of_le h]
    simp [BTreeIterator.next, h]
  · have hspec := (btreeNextGo_spec items cfg.pfx (items.length - ci) ci (le_refl _)).1
    simp only [BTreeIterator.next, h, if_false]
    rw [hspec, hfind]

/-- C4.  Iterator order, prefix and seek over any sorted index snapshot:
with an empty prefix the iterator yields exactly the map, ascending (or
descending when reversed); with a non-empty prefix, exactly the entries
whose key starts with it, in the chosen order; and after `seek(key)` the
next yielded entry is the first whose key is at least `key` (at most
`key` when reversed). -/
theorem iterator_order_prefix_seek :
    (∀ m : Idx, IdxSorted m →
      iterCollect (BTree.iterator m ⟨[], false⟩) m.length = m ∧
      List.Pairwise (fun a b => lexLt a.1 b.1 = true)
        (iterCollect (BTree.iterator m ⟨[], false⟩) m.length) ∧
      iterCollect (BTree.iterator m ⟨[], true⟩) m.length = m.reverse ∧
      List.Pairwise (fun a b => lexLt b.1 a.1 = true)
        (iterCollect (BTree.iterator m ⟨[], true⟩) m.length)) ∧
    (∀ (m : Idx) (p : List Nat), p ≠ [] →
      iterCollect (BTree.iterator m ⟨p, false⟩) m.length =
        m.filter (fun it => p.isPrefixOf it.1) ∧
      iterCollect (BTree.iterator m ⟨p, true⟩) m.length =
        m.reverse.filter (fun it => p.isPrefixOf it.1)) ∧
    (∀ (m : Idx) (key : List Nat), IdxSorted m →
      ((BTree.iterator m ⟨[], false⟩).seek key).next.2 =
        m.find? (fun it => !lexLt it.1 key) ∧
      ((BTree.iterator m ⟨[], true⟩).seek key).next.2 =
        m.reverse.find? (fun it => !lexLt key it.1)) := by
  have hall : ∀ (p : List Nat) (m : List (List Nat × RecordPos)) (f : Nat),
      m.length ≤ f →
      iterCollect ⟨m, 0, ⟨p, false⟩⟩ f = m.filter (prefOk p) := by
    intro p m f hf
    have := iterCollect_spec m ⟨p, false⟩ f 0 (by omega)
    simpa using this
  have hallr : ∀ (p : List Nat) (m : List (List Nat × RecordPos)) (f : Nat),
      m.length ≤ f →
      iterCollect ⟨m, 0, ⟨p, true⟩⟩ f = m.filter (prefOk p) := by
    intro p m f hf
    have := iterCollect_spec m ⟨p, true⟩ f 0 (by omega)
    simpa using this
  have hiter : ∀ (m : Idx) (p : List Nat),
      BTree.iterator m ⟨p, false⟩ = ⟨m, 0, ⟨p, false⟩⟩ := by
    intro m p
    simp [BTree.iterator]
  have hiterr : ∀ (m : Idx) (p : List Nat),
      BTree.iterator m ⟨p, true⟩ = ⟨m.reverse, 0, ⟨p, true⟩⟩ := by
    intro m p
    simp [BTree.iterator]
  have hfilter_true : ∀ m : List (List Nat × RecordPos),
      m.filter (prefOk []) = m := by
    intro m
    apply List.filter_eq_self.mpr
    intro x _
    simp [prefOk]
  refine ⟨?_, ?_, ?_⟩
  · intro m hs
    have h1 : iterCollect (BTree.iterator m ⟨[], false⟩) m.length = m := by
      rw [hiter, hall [] m m.length (le_refl _), hfilter_true]
    have h2 : iterCollect (BTree.iterator m ⟨[], true⟩) m.length = m.reverse := by
      rw [hiterr, hallr [] m.reverse m.length (by simp), hfilter_true]
    refine ⟨h1, ?_, h2, ?_⟩
    · rw [h1]
      exact hs
    · rw [h2]
      rw [List.pairwise_reverse]
      exact hs
  · intro m p hp
    have hpe : p.isEmpty = false := by
      cases p with
      | nil => exact absurd rfl hp
      | cons c r => rfl
    have hcong : ∀ l : List (List Nat × RecordPos),
        l.filter (prefOk p) = l.filter (fun it => p.isPrefixOf it.1) := by
      intro l
      apply List.filter_congr
      intro x _
      simp [prefOk, hpe]
    constructor
    · rw [hiter, hall p m m.length (le_refl _), hcong]
    · rw [hiterr, hallr p m.reverse m.length (by simp), hcong]
  · intro m key hs
    constructor
    · have hseek : (BTree.iterator m ⟨[], false⟩).seek key =
          ⟨m, m.countP (fun it => lexLt it.1 key), ⟨[], false⟩⟩ := by
        rw [hiter]
        simp [BTreeIterator.seek, seekIndex]
      rw [hseek, next_snd_empty_pfx _ _ _ rfl]
      have hpw : List.Pairwise
          (fun a b => (fun it => lexLt it.1 key) b = true →
            (fun it => lexLt it.1 key) a = true) m := by
        apply hs.imp
        intro a b hab hbk
        exact lexLt_trans hab hbk
      rw [countP_eq_takeWhile_length m hpw, drop_takeWhile_length,
        ← find?_not_eq_head?_dropWhile]
    · have hseek : (BTree.iterator m ⟨[], true⟩).seek key =
          ⟨m.reverse, (m.reverse).countP (fun it => lexLt key it.1), ⟨[], true⟩⟩ := by
        rw [hiterr]
        simp [BTreeIterator.seek, seekIndex]
      rw [hseek, next_snd_empty_pfx _ _ _ rfl]
      have hpw : List.Pairwise
          (fun a b => (fun it => lexLt key it.1) b = true →
            (fun it => lexLt key it.1) a = true) m.reverse := by
        rw [List.pairwise_reverse]
        apply hs.imp
        intro a b hab hkb
        exact lexLt_trans hkb hab
      rw [countP_eq_takeWhile_length m.reverse hpw, drop_takeWhile_length,
        ← find?_not_eq_head?_dropWhile]

/-- C4 witness: a two-entry sorted snapshot — ascending drain, prefix
filtering, and a seek landing on the first key at least the target. -/
theorem iterator_order_prefix_seek_witness :
    iterCollect (BTree.iterator [([97], ⟨0, 0⟩), ([98], ⟨0, 1⟩)] ⟨[], false⟩) 2 =
      [([97], ⟨0, 0⟩), ([98], ⟨0, 1⟩)] ∧
    iterCollect (BTree.iterator [([97], ⟨0, 0⟩), ([98], ⟨0, 1⟩)] ⟨[97], false⟩) 2 =
      [([97], ⟨0, 0⟩)] ∧
    ((BTree.iterator [([97], ⟨0, 0⟩), ([98], ⟨0, 1⟩)] ⟨[], false⟩).seek [98]).next.2 =
      some ([98], ⟨0, 1⟩) := by
  have hs : IdxSorted [([97], ⟨0, 0⟩), ([98], ⟨0, 1⟩)] := by
    unfold IdxSorted
    rw [List.pairwise_cons]
    refine ⟨?_, by simp⟩
    intro b hb
    rw [List.mem_singleton] at hb
    subst hb
    decide
  refine ⟨(iterator_order_prefix_seek.1 _ hs).1, ?_, ?_⟩
  · have h := (iterator_order_prefix_seek.2.1 [([97], ⟨0, 0⟩), ([98], ⟨0, 1⟩)]
      [97] (by decide)).1
    exact h.trans (by decide)
  · have h := (iterator_order_prefix_seek.2.2 [([97], ⟨0, 0⟩), ([98], ⟨0, 1⟩)]
      [98] hs).1
    exact h.trans (by decide)
/-! ## CRC corruption detection. -/

/-- The 11-byte header window over a type byte, two short fields and an
arbitrary remainder. -/
theorem seekRead_header_window {t : Nat} {vk vv X file : List Nat} {off : Nat}
    (hctx : file.drop off = t :: (vk ++ (vv ++ X)))
    (hvk : vk.length ≤ 5) (hvv : vv.length ≤ 5) :
    seekRead file 11 off =
      t :: (vk ++ (vv ++ (X ++ List.replicate 11 0).take (10 - vk.length - vv.length))) := by
  rw [seekRead, hctx]
  have he : (t :: (vk ++ (vv ++ X))) ++ List.replicate 11 0 =
      t :: (vk ++ (vv ++ (X ++ List.replicate 11 0))) := by
    simp [List.append_assoc]
  rw [he, show (11 : Nat) = 10 + 1 from rfl, List.take_succ_cons]
  rw [take_append_split (by omega), take_append_split (by omega)]

/-- Reading a framed record whose payload or CRC word may have been
corrupted: the header still parses from the varints, and the result is
`InvalidCrc` exactly when the recomputed CRC differs from the stored
word. -/
theorem readRecord_general {t klen vlen : Nat} {key value crcb file rest : List Nat}
    {off : Nat} (ht : t = 1 ∨ t = 2)
    (hkey : key.length = klen) (hval : value.length = vlen)
    (hk0 : klen ≠ 0) (hklt : klen < 2 ^ 35) (hvlt : vlen < 2 ^ 35)
    (hcrc : crcb.length = 4)
    (hctx : file.drop off =
      t :: (encodeVarint klen ++ (encodeVarint vlen ++
        (key ++ (value ++ (crcb ++ rest)))))) :
    readRecord file off =
      if crc32 ((recordTypeFromU8 t).toByte ::
          (encodeVarint klen ++ encodeVarint vlen ++ key ++ value)) ≠ getU32be crcb
      then .error .InvalidCrc
      else .ok ⟨key, value, recordTypeFromU8 t⟩ := by
  have hkl := length_encodeVarint klen
  have hvl := length_encodeVarint vlen
  have hvk5 := varintLen_le_five _ hklt
  have hvv5 := varintLen_le_five _ hvlt
  have hbuf := seekRead_header_window hctx (by omega) (by omega)
  have hhdr : readRecordHeadBuf file off = .ok ⟨recordTypeFromU8 t, klen, vlen⟩ :=
    readRecordHeadBuf_parse ht hk0 hklt hvlt hbuf
  rw [readRecord, hhdr]
  have hdrop : file.drop
      (off + ReadRecordHeaderBuf.get_header_len ⟨recordTypeFromU8 t, klen, vlen⟩) =
      (key ++ value ++ crcb) ++ rest := by
    rw [← List.drop_drop, hctx]
    have he : t :: (encodeVarint klen ++ (encodeVarint vlen ++
        (key ++ (value ++ (crcb ++ rest))))) =
        (t :: (encodeVarint klen ++ encodeVarint vlen)) ++
          ((key ++ value ++ crcb) ++ rest) := by
      simp [List.append_assoc]
    rw [he, List.drop_left']
    simp [ReadRecordHeaderBuf.get_header_len, length_encodeVarint]
  have hkv : seekRead file (klen + vlen + 4)
      (off + ReadRecordHeaderBuf.get_header_len ⟨recordTypeFromU8 t, klen, vlen⟩) =
      key ++ value ++ crcb := by
    rw [seekRead_exact hdrop (by simp [hkey, hval, hcrc]; omega)]
    apply List.take_left'
    simp [hkey, hval, hcrc]
    try omega
  simp only [hkv]
  have hkey2 : (key ++ value ++ crcb).take klen = key := by
    rw [List.append_assoc]
    exact List.take_left' hkey
  have hval2 : ((key ++ value ++ crcb).drop klen).take vlen = value := by
    rw [List.append_assoc, List.drop_left' hkey]
    exact List.take_left' hval
  have hcrc2 : (key ++ value ++ crcb).drop (klen + vlen) = crcb := by
    apply List.drop_left'
    simp [hkey, hval]
  rw [hkey2, hval2, hcrc2]
  have hbody : (Record.mk key value (recordTypeFromU8 t)).bodyBytes =
      (recordTypeFromU8 t).toByte ::
        (encodeVarint klen ++ encodeVarint vlen ++ key ++ value) := by
    simp [Record.bodyBytes, hkey, hval]
  rw [hbody]

/-- A 32-bit big-endian word with one byte overwritten by a different
value decodes to a different word. -/
theorem getU32be_set_ne {c b : Nat} (hc : c < 2 ^ 32) (hb : b < 256) {j : Nat}
    (hj : j < 4) (hne : b ≠ (u32be c).getD j 0) :
    getU32be ((u32be c).set j b) ≠ c := by
  interval_cases j <;>
    simp only [u32be, List.set_cons_zero, List.set_cons_succ, List.getD_cons_zero,
      List.getD_cons_succ, getU32be] at hne ⊢ <;>
    omega

set_option maxRecDepth 100000 in
/-- C5 counterexample: flipping the first header byte (the type byte) of
a persisted record makes the read fail with `ReadEOF`, not
`InvalidCrc`. -/
theorem crc_flip_type_byte_not_invalidcrc :
    readRecord ((Record.new_set [107] [118]).encode.set 0 0) 0 = .error .ReadEOF ∧
    (Record.new_set [107] [118]).encode.getD 0 0 = 1 := by
  decide

/-- C5 amended: flipping a single byte of a persisted record at or past
the end of the parsed header — that is, within the key bytes, the value
bytes, or the CRC word — to a different value makes reading the record
fail with `InvalidCrc`.  (A flip inside the header bytes can fail
differently; see the type-byte counterexample.) -/
theorem crc_flip_detected {r : Record} (hr : RecordOk r) (hk : ByteListOk r.key)
    (hv : ByteListOk r.value) {file rest : List Nat} {off i b : Nat}
    (hctx : file.drop off = r.encode.set i b ++ rest)
    (hlo : 1 + varintLen r.key.length + varintLen r.value.length ≤ i)
    (hhi : i < r.encode.length)
    (hb : b < 256) (hne : b ≠ r.encode.getD i 0) :
    readRecord file off = .error .InvalidCrc := by
  obtain ⟨hkne, hklt, hvlt, htne⟩ := hr
  have hkl := length_encodeVarint r.key.length
  have hvl := length_encodeVarint r.value.length
  have ht := toByte_one_or_two htne
  have hk0 : r.key.length ≠ 0 := fun hz => hkne (List.length_eq_zero.mp hz)
  have hlen := length_encode r
  simp only [Record.encoded_len] at hlen
  obtain ⟨j, rfl⟩ : ∃ j, i = 1 + varintLen r.key.length + varintLen r.value.length + j :=
    ⟨i - (1 + varintLen r.key.length + varintLen r.value.length), by omega⟩
  have hencd : r.encode =
      (r.record_type.toByte :: (encodeVarint r.key.length ++ encodeVarint r.value.length)) ++
        ((r.key ++ r.value) ++ u32be (crc32 r.bodyBytes)) := by
    simp [Record.encode, Record.bodyBytes, List.append_assoc]
  have hidx : 1 + varintLen r.key.length + varintLen r.value.length + j -
      (r.record_type.toByte ::
        (encodeVarint r.key.length ++ encodeVarint r.value.length)).length = j := by
    simp only [List.length_cons, List.length_append, length_encodeVarint]
    omega
  have hset : r.encode.set (1 + varintLen r.key.length + varintLen r.value.length + j) b =
      (r.record_type.toByte :: (encodeVarint r.key.length ++ encodeVarint r.value.length)) ++
        ((r.key ++ r.value) ++ u32be (crc32 r.bodyBytes)).set j b := by
    rw [hencd, List.set_append,
      if_neg (by simp only [List.length_cons, List.length_append, length_encodeVarint]; omega),
      hidx]
  have hgetd : r.encode.getD (1 + varintLen r.key.length + varintLen r.value.length + j) 0 =
      ((r.key ++ r.value) ++ u32be (crc32 r.bodyBytes)).getD j 0 := by
    rw [hencd, List.getD_append_right _ _ _ _
      (by simp only [List.length_cons, List.length_append, length_encodeVarint]; omega), hidx]
  have hcl : (u32be (crc32 r.bodyBytes)).length = 4 := length_u32be _
  have hgu : getU32be (u32be (crc32 r.bodyBytes)) = crc32 r.bodyBytes := by
    have h9 := getU32be_u32be (crc32 r.bodyBytes) (crc32_lt _) []
    simpa using h9
  by_cases hjp : j < r.key.length + r.value.length
  · -- the flip lands inside the key or value bytes
    have hjq : j < (r.key ++ r.value).length := by
      simp only [List.length_append]
      omega
    have hset2 : ((r.key ++ r.value) ++ u32be (crc32 r.bodyBytes)).set j b =
        (r.key ++ r.value).set j b ++ u32be (crc32 r.bodyBytes) := by
      rw [List.set_append, if_pos (by simp only [List.length_append]; omega)]
    have hkey1 : (((r.key ++ r.value).set j b).take r.key.length).length = r.key.length := by
      simp only [List.length_take, List.length_set, List.length_append]
      omega
    have hval1 : (((r.key ++ r.value).set j b).drop r.key.length).length = r.value.length := by
      simp only [List.length_drop, List.length_set, List.length_append]
      omega
    have hsplit : ((r.key ++ r.value).set j b).take r.key.length ++
        ((r.key ++ r.value).set j b).drop r.key.length = (r.key ++ r.value).set j b :=
      List.take_append_drop _ _
    have hctx2 : file.drop off =
        r.record_type.toByte :: (encodeVarint r.key.length ++ (encodeVarint r.value.length ++
          (((r.key ++ r.value).set j b).take r.key.length ++
            ((((r.key ++ r.value).set j b).drop r.key.length) ++
              (u32be (crc32 r.bodyBytes) ++ rest))))) := by
      rw [hctx, hset, hset2]
      conv_lhs => rw [← hsplit]
      simp only [List.cons_append, List.append_assoc]
    have hread := readRecord_general ht hkey1 hval1 hk0 hklt hvlt hcl hctx2
    rw [recordTypeFromU8_toByte htne, hgu] at hread
    have hpay : r.key ++ r.value = (r.key ++ r.value).take j ++
        (r.key ++ r.value).getD j 0 :: (r.key ++ r.value).drop (j + 1) := by
      rw [List.getD_eq_getElem _ _ hjq]
      conv_lhs => rw [← List.take_append_drop j (r.key ++ r.value),
        List.drop_eq_getElem_cons hjq]
    have hpay2 : (r.key ++ r.value).set j b =
        (r.key ++ r.value).take j ++ b :: (r.key ++ r.value).drop (j + 1) := by
      rw [List.set_eq_take_append_cons_drop, if_pos hjq]
    have hbody1 : r.bodyBytes =
        (r.record_type.toByte :: ((encodeVarint r.key.length ++ encodeVarint r.value.length) ++
          (r.key ++ r.value).take j)) ++
          ((r.key ++ r.value).getD j 0 :: (r.key ++ r.value).drop (j + 1)) := by
      have hb1 : r.bodyBytes = r.record_type.toByte ::
          ((encodeVarint r.key.length ++ encodeVarint r.value.length) ++ (r.key ++ r.value)) := by
        simp [Record.bodyBytes, List.append_assoc]
      rw [hb1]
      conv_lhs => rw [hpay]
      simp [List.append_assoc]
    have hbody2 : r.record_type.toByte ::
        (encodeVarint r.key.length ++ encodeVarint r.value.length ++
          ((r.key ++ r.value).set j b).take r.key.length ++
          ((r.key ++ r.value).set j b).drop r.key.length) =
        (r.record_type.toByte :: ((encodeVarint r.key.length ++ encodeVarint r.value.length) ++
          (r.key ++ r.value).take j)) ++ (b :: (r.key ++ r.value).drop (j + 1)) := by
      have h2 : encodeVarint r.key.length ++ encodeVarint r.value.length ++
          ((r.key ++ r.value).set j b).take r.key.length ++
          ((r.key ++ r.value).set j b).drop r.key.length =
          (encodeVarint r.key.length ++ encodeVarint r.value.length) ++
            ((r.key ++ r.value).set j b) := by
        rw [List.append_assoc (encodeVarint r.key.length ++ encodeVarint r.value.length)
          (((r.key ++ r.value).set j b).take r.key.length)
          (((r.key ++ r.value).set j b).drop r.key.length), hsplit]
      rw [h2, hpay2]
      simp [List.append_assoc]
    have hpb : (r.key ++ r.value).getD j 0 < 256 := by
      rw [List.getD_eq_getElem _ _ hjq]
      exact (hk.append hv) _ (List.getElem_mem hjq)
    have hneq : b ≠ (r.key ++ r.value).getD j 0 := by
      rw [hgetd, List.getD_append _ _ _ _ hjq] at hne
      exact hne
    have hcond : crc32 (r.record_type.toByte ::
        (encodeVarint r.key.length ++ encodeVarint r.value.length ++
          ((r.key ++ r.value).set j b).take r.key.length ++
          ((r.key ++ r.value).set j b).drop r.key.length)) ≠ crc32 r.bodyBytes := by
      rw [hbody2, hbody1]
      exact crc32_flip_ne hb hpb hneq
    rw [hread, if_pos hcond]
  · -- the flip lands inside the CRC word
    have hset2 : ((r.key ++ r.value) ++ u32be (crc32 r.bodyBytes)).set j b =
        (r.key ++ r.value) ++
          (u32be (crc32 r.bodyBytes)).set (j - (r.key.length + r.value.length)) b := by
      rw [List.set_append, if_neg (by simp only [List.length_append]; omega)]
      simp only [List.length_append]
    have hcl2 : ((u32be (crc32 r.bodyBytes)).set
        (j - (r.key.length + r.value.length)) b).length = 4 := by
      rw [List.length_set]
      exact length_u32be _
    have hctx2 : file.drop off =
        r.record_type.toByte :: (encodeVarint r.key.length ++ (encodeVarint r.value.length ++
          (r.key ++ (r.value ++
            ((u32be (crc32 r.bodyBytes)).set (j - (r.key.length + r.value.length)) b
              ++ rest))))) := by
      rw [hctx, hset, hset2]
      simp [List.append_assoc]
    have hread := readRecord_general ht rfl rfl hk0 hklt hvlt hcl2 hctx2
    rw [recordTypeFromU8_toByte htne] at hread
    have hbody : r.record_type.toByte ::
        (encodeVarint r.key.length ++ encodeVarint r.value.length ++ r.key ++ r.value) =
        r.bodyBytes := rfl
    rw [hbody] at hread
    have hold : b ≠ (u32be (crc32 r.bodyBytes)).getD (j - (r.key.length + r.value.length)) 0 := by
      rw [hgetd, List.getD_append_right _ _ _ _
        (by simp only [List.length_append]; omega)] at hne
      simp only [List.length_append] at hne
      exact hne
    have hcond : crc32 r.bodyBytes ≠
        getU32be ((u32be (crc32 r.bodyBytes)).set (j - (r.key.length + r.value.length)) b) := by
      exact (getU32be_set_ne (crc32_lt r.bodyBytes) hb (by omega) hold).symm
    rw [hread, if_pos hcond]

set_option maxRecDepth 100000 in
/-- C5 witness: overwriting the key byte of a concrete persisted record
with a different byte makes the read fail with `InvalidCrc`. -/
theorem crc_flip_detected_witness :
    readRecord ((Record.new_set [107] [118]).encode.set 3 99) 0 = .error .InvalidCrc :=
  @crc_flip_detected (Record.new_set [107] [118])
    (by unfold RecordOk; decide) (by unfold ByteListOk; decide) (by unfold ByteListOk; decide)
    ((Record.new_set [107] [118]).encode.set 3 99) [] 0 3 99
    (by decide) (by decide) (by decide) (by decide) (by decide)

end TinyKv
